import Mathlib

/-!
Verification development for the `journal-club` repository's site
reorganization pipeline (`scripts/reorg-site.sh`).

The shell script is shallowly embedded: file contents are `String`s
(processed as `List Char`), filesystem paths are segment lists
(`List String`), and the mutable shell world (working tree, git index,
commit count, logs) is an explicit `World` record threaded through the
pipeline.  Each shell function of the script is translated to a Lean
definition of the same name.  Modelling notes:

* The perl substitutions of `rewrite_asset_paths` are embedded as a
  deterministic matcher (`runState`) over an explicit state machine that
  is exactly the regex `(href|src)\s*=\s*"<legacy-prefix>`, applied in a
  leftmost, non-overlapping scan that does not rescan replaced text --
  perl `s///g` semantics with the six substitutions applied in source
  order.
* The python link checker's regex
  `(?:href|src)\s*=\s*["']([^"']+)["']` (IGNORECASE) is embedded as the
  scanner `extractRefs`; `\s` and case folding are modelled over ASCII.
* Paths are resolved segment-wise; `os.path.normpath` is the textual
  `normpathSegs`; existence checks resolve `.`/`..`/empty segments the
  way the kernel resolves them on a symlink-free tree.
-/

/-- ASCII whitespace class used by perl's and python's `\s` on the data
this script processes. -/
def isWs (c : Char) : Bool :=
  c = ' ' || c = '\t' || c = '\n' || c = '\r' || c = '\x0c' || c = '\x0b'

/-- ASCII lower-casing of a character, the fragment of `str.lower` /
`lc` exercised by the script's scheme and attribute comparisons. -/
def lowerChar (c : Char) : Char :=
  if 'A' ≤ c ∧ c ≤ 'Z' then Char.ofNat (c.toNat + 32) else c

/-- ASCII lower-casing of a string. -/
def lowerStr (s : String) : String :=
  ⟨s.data.map lowerChar⟩

namespace Rewriter

/-- Which attribute name the matcher captured (`$1` of the perl
substitution `(href|src)`). -/
inductive Attr where
  | href
  | src
deriving DecidableEq, Repr

/-- States of the deterministic matcher for the pattern
`(href|src)\s*=\s*"<legacy>`: partial progress through `href`/`src`,
then whitespace before `=`, whitespace before `"`, then `k` characters
of the legacy prefix already consumed. -/
inductive MState where
  | start
  | h1
  | h2
  | h3
  | s1
  | s2
  | eqW (a : Attr)
  | qW (a : Attr)
  | leg (a : Attr) (k : Nat)
deriving DecidableEq, Repr

/-- Outcome of running the matcher over a chunk of input: the pattern
definitively failed, or matched (capturing the attribute and the input
remaining after the legacy prefix), or the chunk ended mid-pattern. -/
inductive RunRes where
  | dead
  | accept (a : Attr) (rest : List Char)
  | ended (st : MState)
deriving DecidableEq, Repr

/-- One transition of the matcher: definitive failure, a new state, or
acceptance (the character completed the legacy prefix). -/
inductive Step where
  | dead
  | toSt (st : MState)
  | acc (a : Attr)
deriving DecidableEq, Repr

/-- Single-character transition of the deterministic matcher for
`(href|src)\s*=\s*"<legacy>`. -/
def stepFn (legacy : List Char) (st : MState) (c : Char) : Step :=
  match st with
  | .start =>
    if c = 'h' then .toSt .h1
    else if c = 's' then .toSt .s1
    else .dead
  | .h1 => if c = 'r' then .toSt .h2 else .dead
  | .h2 => if c = 'e' then .toSt .h3 else .dead
  | .h3 => if c = 'f' then .toSt (.eqW .href) else .dead
  | .s1 => if c = 'r' then .toSt .s2 else .dead
  | .s2 => if c = 'c' then .toSt (.eqW .src) else .dead
  | .eqW a =>
    if isWs c then .toSt (.eqW a)
    else if c = '=' then .toSt (.qW a)
    else .dead
  | .qW a =>
    if isWs c then .toSt (.qW a)
    else if c = '"' then .toSt (.leg a 0)
    else .dead
  | .leg a k =>
    match legacy.get? k with
    | none => .dead
    | some r =>
      if c = r then
        if k + 1 = legacy.length then .acc a else .toSt (.leg a (k + 1))
      else .dead

/-- Run the matcher for legacy prefix `legacy` from state `st` over the
input, one character per step. -/
def runState (legacy : List Char) (st : MState) : List Char → RunRes
  | [] => .ended st
  | c :: cs =>
    match stepFn legacy st c with
    | .dead => .dead
    | .toSt st' => runState legacy st' cs
    | .acc a => .accept a cs

/-- Try the substitution pattern at the head of the input. -/
def tryRule (legacy : List Char) (cs : List Char) : Option (Attr × List Char) :=
  match runState legacy .start cs with
  | .accept a rest => some (a, rest)
  | _ => none

theorem runState_accept_length {legacy : List Char} {st : MState}
    {cs rest : List Char} {a : Attr}
    (h : runState legacy st cs = .accept a rest) : rest.length < cs.length := by
  induction cs generalizing st with
  | nil => simp [runState] at h
  | cons c cs ih =>
    simp only [runState] at h
    split at h
    · cases h
    · exact Nat.lt_succ_of_lt (ih h)
    · cases h; exact Nat.lt_succ_self _

/-- Running the matcher over `l ++ t` factors through its outcome on
`l`. -/
theorem runState_append (legacy : List Char) (st : MState) (l t : List Char) :
    runState legacy st (l ++ t) =
      match runState legacy st l with
      | .dead => .dead
      | .accept a r => .accept a (r ++ t)
      | .ended st' => runState legacy st' t := by
  induction l generalizing st with
  | nil => simp [runState]
  | cons c cs ih =>
    simp only [List.cons_append, runState]
    split <;> simp [ih]

theorem tryRule_some_length {legacy cs rest : List Char} {a : Attr}
    (h : tryRule legacy cs = some (a, rest)) : rest.length < cs.length := by
  unfold tryRule at h
  split at h
  · cases h; exact runState_accept_length (by assumption)
  · cases h

/-- The text a match is replaced with: `$1="<canon>` where `canon` is
the canonical `/assets/...` prefix. -/
def repFor (a : Attr) (canon : List Char) : List Char :=
  (match a with
   | .href => ['h', 'r', 'e', 'f']
   | .src => ['s', 'r', 'c']) ++ '=' :: '"' :: canon

/-- One perl `s/(href|src)\s*=\s*"<legacy>/$1="<canon>/g` pass, with
explicit fuel (consumed input length) so the scan is structurally
recursive: a leftmost scan; on a match, emit the replacement and
continue after the consumed input (replaced text is not rescanned). -/
def applyRuleF (legacy canon : List Char) : Nat → List Char → List Char
  | 0, cs => cs
  | _ + 1, [] => []
  | fuel + 1, c :: cs' =>
    match tryRule legacy (c :: cs') with
    | some (a, rest) => repFor a canon ++ applyRuleF legacy canon fuel rest
    | none => c :: applyRuleF legacy canon fuel cs'

/-- The pass with just enough fuel to finish. -/
def applyRule (legacy canon : List Char) (cs : List Char) : List Char :=
  applyRuleF legacy canon cs.length cs

theorem applyRuleF_congr (legacy canon : List Char) :
    ∀ f₁ f₂ cs, cs.length ≤ f₁ → cs.length ≤ f₂ →
      applyRuleF legacy canon f₁ cs = applyRuleF legacy canon f₂ cs := by
  intro f₁
  induction f₁ with
  | zero =>
    intro f₂ cs h1 _
    have : cs = [] := List.eq_nil_of_length_eq_zero (Nat.le_zero.mp h1)
    subst this
    cases f₂ <;> rfl
  | succ f ih =>
    intro f₂ cs h1 h2
    match cs with
    | [] => cases f₂ <;> rfl
    | c :: cs' =>
      match f₂ with
      | 0 => simp at h2
      | f₂' + 1 =>
        cases htr : tryRule legacy (c :: cs') with
        | some ar =>
          obtain ⟨a, rest⟩ := ar
          have hl := tryRule_some_length htr
          simp only [List.length_cons] at hl h1 h2
          simp only [applyRuleF, htr]
          rw [ih f₂' rest (by omega) (by omega)]
        | none =>
          simp only [List.length_cons] at h1 h2
          simp only [applyRuleF, htr]
          rw [ih f₂' cs' (by omega) (by omega)]

/-- The six substitutions of `rewrite_asset_paths`, in the order the
perl one-liner applies them. -/
def rules : List (List Char × List Char) :=
  [("./css/".data, "/assets/css/".data),
   ("css/".data, "/assets/css/".data),
   ("./js/".data, "/assets/js/".data),
   ("js/".data, "/assets/js/".data),
   ("./img/".data, "/assets/img/".data),
   ("img/".data, "/assets/img/".data)]

/-- The full per-file rewrite: all six substitutions in order. -/
def rewriteChars (cs : List Char) : List Char :=
  rules.foldl (fun acc p => applyRule p.1 p.2 acc) cs

/-- `rewrite_asset_paths` on a single HTML file's content. -/
def rewriteContent (s : String) : String :=
  ⟨rewriteChars s.data⟩

/-- The three canonical replacement prefixes. -/
def canons : List (List Char) :=
  ["/assets/css/".data, "/assets/js/".data, "/assets/img/".data]

theorem applyRule_nil (legacy canon : List Char) :
    applyRule legacy canon [] = [] := rfl

theorem applyRule_cons_some {legacy : List Char} {c : Char} {cs rest : List Char}
    {a : Attr} (canon : List Char) (h : tryRule legacy (c :: cs) = some (a, rest)) :
    applyRule legacy canon (c :: cs) = repFor a canon ++ applyRule legacy canon rest := by
  unfold applyRule
  simp only [List.length_cons, applyRuleF, h]
  congr 1
  apply applyRuleF_congr
  · have := tryRule_some_length h
    simp only [List.length_cons] at this
    omega
  · exact Nat.le_refl _

theorem applyRule_cons_none {legacy : List Char} {c : Char} {cs : List Char}
    (canon : List Char) (h : tryRule legacy (c :: cs) = none) :
    applyRule legacy canon (c :: cs) = c :: applyRule legacy canon cs := by
  unfold applyRule
  simp only [List.length_cons, applyRuleF, h]

/-- States the matcher can actually be in while scanning for a given
legacy prefix: the legacy offset stays in range. -/
def goodState (legacy : List Char) : MState → Prop
  | .leg _ k => k < legacy.length
  | _ => True

theorem stepFn_good {legacy : List Char} {st st' : MState} {c : Char}
    (hne : legacy ≠ []) (h : stepFn legacy st c = .toSt st') :
    goodState legacy st' := by
  cases st with
  | start =>
    simp only [stepFn] at h
    split at h
    · cases h; trivial
    · split at h
      · cases h; trivial
      · cases h
  | h1 => simp only [stepFn] at h; split at h <;> cases h; trivial
  | h2 => simp only [stepFn] at h; split at h <;> cases h; trivial
  | h3 => simp only [stepFn] at h; split at h <;> cases h; trivial
  | s1 => simp only [stepFn] at h; split at h <;> cases h; trivial
  | s2 => simp only [stepFn] at h; split at h <;> cases h; trivial
  | eqW a =>
    simp only [stepFn] at h
    split at h
    · cases h; trivial
    · split at h
      · cases h; trivial
      · cases h
  | qW a =>
    simp only [stepFn] at h
    split at h
    · cases h; trivial
    · split at h
      · cases h
        simp only [goodState]
        exact List.length_pos.mpr hne
      · cases h
  | leg a k =>
    simp only [stepFn] at h
    split at h
    · cases h
    · next r hr =>
      have hk : k < legacy.length := by
        by_contra hh
        rw [List.get?_eq_none.mpr (Nat.le_of_not_lt hh)] at hr
        cases hr
      split at h
      · split at h
        · cases h
        · next hne' =>
          cases h
          simp only [goodState]
          omega
      · cases h

theorem runState_ended_good {legacy : List Char} {st st' : MState}
    {l : List Char} (hne : legacy ≠ []) (hst : goodState legacy st)
    (h : runState legacy st l = .ended st') : goodState legacy st' := by
  induction l generalizing st with
  | nil => simp only [runState] at h; cases h; exact hst
  | cons c cs ih =>
    simp only [runState] at h
    split at h
    · cases h
    · exact ih (stepFn_good hne (by assumption)) h
    · cases h

theorem runState_accept_suffix {legacy : List Char} {st : MState}
    {cs rest : List Char} {a : Attr}
    (h : runState legacy st cs = .accept a rest) : ∃ u, u ++ rest = cs := by
  induction cs generalizing st with
  | nil => simp [runState] at h
  | cons c cs ih =>
    simp only [runState] at h
    split at h
    · cases h
    · obtain ⟨u, hu⟩ := ih h
      exact ⟨c :: u, by simp [hu]⟩
    · cases h; exact ⟨[c], rfl⟩

/-- No position of `cs` begins a match of the rule with this legacy
prefix. -/
def NoMatch (legacy : List Char) (cs : List Char) : Prop :=
  ∀ i, tryRule legacy (cs.drop i) = none

theorem noMatch_nil (legacy : List Char) : NoMatch legacy [] := by
  intro i
  simp [tryRule, runState]

theorem NoMatch.drop {legacy cs : List Char} (h : NoMatch legacy cs) (k : Nat) :
    NoMatch legacy (cs.drop k) := by
  intro i
  rw [List.drop_drop]
  first
  | exact h (i + k)
  | exact h (k + i)

theorem noMatch_cons {legacy : List Char} {c : Char} {cs : List Char}
    (h0 : tryRule legacy (c :: cs) = none) (h : NoMatch legacy cs) :
    NoMatch legacy (c :: cs) := by
  intro i
  cases i with
  | zero => exact h0
  | succ j => exact h j

theorem drop_append_left {α : Type} (l t : List α) (i : Nat)
    (h : i ≤ l.length) : (l ++ t).drop i = l.drop i ++ t := by
  induction l generalizing i with
  | nil => simp at h; simp [h]
  | cons x xs ih =>
    cases i with
    | zero => simp
    | succ j => simpa using ih j (by simpa using h)

theorem drop_append_right {α : Type} (l t : List α) (i : Nat)
    (h : l.length ≤ i) : (l ++ t).drop i = t.drop (i - l.length) := by
  induction l generalizing i with
  | nil => simp
  | cons x xs ih =>
    cases i with
    | zero => simp at h
    | succ j => simpa using ih j (by simpa using h)

theorem tryRule_cons_dead {legacy : List Char} {c : Char}
    (hsf : stepFn legacy .start c = .dead) (xs : List Char) :
    tryRule legacy (c :: xs) = none := by
  unfold tryRule
  simp [runState, hsf]

theorem tryRule_cons_acc {legacy : List Char} {c : Char} {a : Attr}
    (hsf : stepFn legacy .start c = .acc a) (xs : List Char) :
    tryRule legacy (c :: xs) = some (a, xs) := by
  unfold tryRule
  simp [runState, hsf]

theorem tryRule_cons_toSt {legacy : List Char} {c : Char} {st₁ : MState}
    (hsf : stepFn legacy .start c = .toSt st₁) (xs : List Char) :
    tryRule legacy (c :: xs) =
      (match runState legacy st₁ xs with
       | RunRes.accept a r => some (a, r)
       | _ => none) := by
  unfold tryRule
  simp [runState, hsf]

section PairLemmas

variable {legacy₁ legacy₂ canon : List Char}

/-- Rewriting with one rule never creates a partial-or-complete match of
a rule whose matcher could not already accept: from any in-range state,
running over the output cannot accept if it could not accept over the
input.  The replacement text kills any in-progress match (`hrep`). -/
theorem key_no_accept (hne₁ : legacy₁ ≠ [])
    (hrep : ∀ st, goodState legacy₁ st → ∀ a,
      runState legacy₁ st (repFor a canon) = .dead) :
    ∀ cs st, goodState legacy₁ st →
      (∀ a r, runState legacy₁ st cs ≠ .accept a r) →
      ∀ a r, runState legacy₁ st (applyRule legacy₂ canon cs) ≠ .accept a r := by
  suffices H : ∀ n cs, cs.length ≤ n → ∀ st, goodState legacy₁ st →
      (∀ a r, runState legacy₁ st cs ≠ RunRes.accept a r) →
      ∀ a r, runState legacy₁ st (applyRule legacy₂ canon cs) ≠ RunRes.accept a r by
    exact fun cs => H cs.length cs (Nat.le_refl _)
  intro n
  induction n with
  | zero =>
    intro cs hlen st _ hacc
    have : cs = [] := List.eq_nil_of_length_eq_zero (Nat.le_zero.mp hlen)
    subst this
    rw [applyRule_nil]
    exact hacc
  | succ n ih =>
    intro cs hlen st hst hacc a r
    match cs with
    | [] => rw [applyRule_nil]; exact hacc a r
    | c :: cs' =>
      match htr : tryRule legacy₂ (c :: cs') with
      | some (a₂, rest) =>
        rw [applyRule_cons_some canon htr]
        rw [runState_append, hrep st hst a₂]
        simp
      | none =>
        rw [applyRule_cons_none canon htr]
        have hstep : runState legacy₁ st (c :: applyRule legacy₂ canon cs') =
            match stepFn legacy₁ st c with
            | .dead => .dead
            | .toSt st' => runState legacy₁ st' (applyRule legacy₂ canon cs')
            | .acc a' => .accept a' (applyRule legacy₂ canon cs') := by
          simp [runState]
        rw [hstep]
        match hsf : stepFn legacy₁ st c with
        | .dead => simp
        | .acc a' =>
          exfalso
          exact hacc a' cs' (by simp [runState, hsf])
        | .toSt st₁ =>
          have hacc' : ∀ a r, runState legacy₁ st₁ cs' ≠ RunRes.accept a r := by
            intro a'' r'' hc
            exact hacc a'' r'' (by simp [runState, hsf, hc])
          exact ih cs' (by simpa using hlen) st₁
            (stepFn_good hne₁ hsf) hacc' a r

/-- Applying one rule yields text with no match of a rule that either is
the rule just applied or already had no match: self-clearing plus
non-creation. -/
theorem nm_apply (hne₁ : legacy₁ ≠ [])
    (hrep : ∀ st, goodState legacy₁ st → ∀ a,
      runState legacy₁ st (repFor a canon) = .dead)
    (hsuf : ∀ (a : Attr) i, 0 < i → i < (repFor a canon).length →
      runState legacy₁ .start ((repFor a canon).drop i) = .dead) :
    ∀ cs, (legacy₁ = legacy₂ ∨ NoMatch legacy₁ cs) →
      NoMatch legacy₁ (applyRule legacy₂ canon cs) := by
  suffices H : ∀ n cs, cs.length ≤ n → (legacy₁ = legacy₂ ∨ NoMatch legacy₁ cs) →
      NoMatch legacy₁ (applyRule legacy₂ canon cs) by
    exact fun cs => H cs.length cs (Nat.le_refl _)
  intro n
  induction n with
  | zero =>
    intro cs hlen _
    have : cs = [] := List.eq_nil_of_length_eq_zero (Nat.le_zero.mp hlen)
    subst this
    rw [applyRule_nil]
    exact noMatch_nil _
  | succ n ih =>
    intro cs hlen hyp
    match cs with
    | [] => rw [applyRule_nil]; exact noMatch_nil _
    | c :: cs' =>
      match htr : tryRule legacy₂ (c :: cs') with
      | some (a₂, rest) =>
        rw [applyRule_cons_some canon htr]
        have hsufx : ∃ u, u ++ rest = c :: cs' := by
          unfold tryRule at htr
          split at htr
          · cases htr; exact runState_accept_suffix (by assumption)
          · cases htr
        obtain ⟨u, hu⟩ := hsufx
        have hrest : legacy₁ = legacy₂ ∨ NoMatch legacy₁ rest := by
          rcases hyp with h | h
          · exact Or.inl h
          · right
            have heq : rest = (c :: cs').drop u.length := by
              rw [← hu, drop_append_right u rest u.length (Nat.le_refl _)]
              simp
            rw [heq]; exact h.drop u.length
        have hlen' : rest.length ≤ n := by
          have h2 := tryRule_some_length htr
          simp only [List.length_cons] at h2 hlen
          omega
        have hout' : NoMatch legacy₁ (applyRule legacy₂ canon rest) :=
          ih rest hlen' hrest
        intro i
        by_cases hi : i < (repFor a₂ canon).length
        · rw [drop_append_left _ _ i (Nat.le_of_lt hi)]
          unfold tryRule
          rw [runState_append]
          rcases Nat.eq_zero_or_pos i with h0 | h0
          · subst h0
            simp only [List.drop_zero]
            rw [hrep .start trivial a₂]
          · rw [hsuf a₂ i h0 hi]
        · rw [drop_append_right _ _ i (Nat.le_of_not_lt hi)]
          exact hout' _
      | none =>
        rw [applyRule_cons_none canon htr]
        have h0 : tryRule legacy₁ (c :: cs') = none := by
          rcases hyp with h | h
          · rw [h]; exact htr
          · exact h 0
        have hrest : legacy₁ = legacy₂ ∨ NoMatch legacy₁ cs' := by
          rcases hyp with h | h
          · exact Or.inl h
          · right; have := h.drop 1; simpa using this
        have hout' : NoMatch legacy₁ (applyRule legacy₂ canon cs') :=
          ih cs' (by simpa using hlen) hrest
        apply noMatch_cons _ hout'
        match hsf : stepFn legacy₁ .start c with
        | .dead => exact tryRule_cons_dead hsf _
        | .acc a' =>
          rw [tryRule_cons_acc hsf] at h0
          cases h0
        | .toSt st₁ =>
          rw [tryRule_cons_toSt hsf]
          have hacc : ∀ a r, runState legacy₁ st₁ cs' ≠ RunRes.accept a r := by
            intro a r hc
            rw [tryRule_cons_toSt hsf, hc] at h0
            simp at h0
          have hstop := @key_no_accept legacy₁ legacy₂ canon hne₁ hrep cs' st₁
            (stepFn_good hne₁ hsf) hacc
          match hrun : runState legacy₁ st₁ (applyRule legacy₂ canon cs') with
          | .dead => rfl
          | .ended _ => rfl
          | .accept a r => exact absurd hrun (hstop a r)

/-- A pass over text with no match is the identity. -/
theorem applyRule_id {legacy : List Char} (canon : List Char) {cs : List Char}
    (h : NoMatch legacy cs) : applyRule legacy canon cs = cs := by
  induction cs with
  | nil => exact applyRule_nil _ _
  | cons c cs' ih =>
    rw [applyRule_cons_none canon (h 0)]
    congr 1
    apply ih
    have := h.drop 1
    simpa using this

end PairLemmas

/-- Enumeration of the in-range matcher states for a legacy prefix. -/
def stateList (legacy : List Char) : List MState :=
  [.start, .h1, .h2, .h3, .s1, .s2, .eqW .href, .eqW .src, .qW .href, .qW .src] ++
    (List.range legacy.length).flatMap (fun k => [.leg .href k, .leg .src k])

theorem goodState_mem {legacy : List Char} {st : MState}
    (h : goodState legacy st) : st ∈ stateList legacy := by
  cases st with
  | leg a k =>
    simp only [goodState] at h
    have hm : MState.leg a k ∈
        (List.range legacy.length).flatMap (fun k => [MState.leg .href k, MState.leg .src k]) := by
      rw [List.mem_flatMap]
      exact ⟨k, List.mem_range.mpr h, by cases a <;> simp⟩
    simp [stateList, hm]
  | start => simp [stateList]
  | h1 => simp [stateList]
  | h2 => simp [stateList]
  | h3 => simp [stateList]
  | s1 => simp [stateList]
  | s2 => simp [stateList]
  | eqW a => cases a <;> simp [stateList]
  | qW a => cases a <;> simp [stateList]

/-- From any reachable matcher state of any of the six rules, running
over any replacement text definitively fails: the replacement starts
`href=` / `src=` and its quote is followed by `/`. -/
theorem bigDead :
    ∀ lg ∈ rules.map Prod.fst, ∀ cn ∈ canons, ∀ st ∈ stateList lg,
      ∀ a ∈ [Attr.href, Attr.src], runState lg st (repFor a cn) = .dead := by
  decide

/-- Starting a fresh match at any position strictly inside a replacement
text also definitively fails. -/
theorem bigSuf :
    ∀ lg ∈ rules.map Prod.fst, ∀ a ∈ [Attr.href, Attr.src], ∀ cn ∈ canons,
      ∀ i ∈ List.range (repFor a cn).length, i ≠ 0 →
        runState lg .start ((repFor a cn).drop i) = .dead := by
  decide

theorem legacy_ne_nil : ∀ lg ∈ rules.map Prod.fst, lg ≠ [] := by decide

theorem canon_of_rules : ∀ p ∈ rules, p.2 ∈ canons := by decide

theorem hrep_of {lg cn : List Char} (hlg : lg ∈ rules.map Prod.fst)
    (hcn : cn ∈ canons) :
    ∀ st, goodState lg st → ∀ a, runState lg st (repFor a cn) = .dead := by
  intro st hst a
  exact bigDead lg hlg cn hcn st (goodState_mem hst) a (by cases a <;> simp)

theorem hsuf_of {lg cn : List Char} (hlg : lg ∈ rules.map Prod.fst)
    (hcn : cn ∈ canons) :
    ∀ (a : Attr) i, 0 < i → i < (repFor a cn).length →
      runState lg .start ((repFor a cn).drop i) = .dead := by
  intro a i h0 hi
  exact bigSuf lg hlg a (by cases a <;> simp) cn hcn i (List.mem_range.mpr hi)
    (Nat.pos_iff_ne_zero.mp h0)

/-- Folding further rules over text preserves the no-match property of
any rule. -/
theorem preserveFold :
    ∀ (rs : List (List Char × List Char)), (∀ p ∈ rs, p ∈ rules) →
      ∀ lg, lg ∈ rules.map Prod.fst → ∀ cs, NoMatch lg cs →
        NoMatch lg (rs.foldl (fun acc p => applyRule p.1 p.2 acc) cs) := by
  intro rs
  induction rs with
  | nil => intro _ lg _ cs h; exact h
  | cons q rest ih =>
    intro hrs lg hlg cs h
    have hq : q ∈ rules := hrs q (by simp)
    have hstep : NoMatch lg (applyRule q.1 q.2 cs) :=
      nm_apply (legacy_ne_nil lg hlg) (hrep_of hlg (canon_of_rules q hq))
        (hsuf_of hlg (canon_of_rules q hq)) cs (Or.inr h)
    exact ih (fun p hp => hrs p (by simp [hp])) lg hlg _ hstep

/-- After folding a batch of the six rules, each rule in the batch has
no remaining match. -/
theorem establishFold :
    ∀ (rs : List (List Char × List Char)), (∀ p ∈ rs, p ∈ rules) →
      ∀ cs p, p ∈ rs →
        NoMatch p.1 (rs.foldl (fun acc q => applyRule q.1 q.2 acc) cs) := by
  intro rs
  induction rs with
  | nil => intro _ cs p hp; cases hp
  | cons q rest ih =>
    intro hrs cs p hp
    have hq : q ∈ rules := hrs q (by simp)
    have hq1 : q.1 ∈ rules.map Prod.fst := List.mem_map.mpr ⟨q, hq, rfl⟩
    rcases List.mem_cons.mp hp with h | h
    · subst h
      have hstep : NoMatch p.1 (applyRule p.1 p.2 cs) :=
        nm_apply (legacy_ne_nil p.1 hq1) (hrep_of hq1 (canon_of_rules p hq))
          (hsuf_of hq1 (canon_of_rules p hq)) cs (Or.inl rfl)
      exact preserveFold rest (fun r hr => hrs r (by simp [hr])) p.1 hq1 _ hstep
    · exact ih (fun r hr => hrs r (by simp [hr])) _ p h

/-- Folding rules over text none of them matches is the identity. -/
theorem idFold :
    ∀ (rs : List (List Char × List Char)) (x : List Char),
      (∀ p ∈ rs, NoMatch p.1 x) →
      rs.foldl (fun acc q => applyRule q.1 q.2 acc) x = x := by
  intro rs
  induction rs with
  | nil => intro x _; rfl
  | cons q rest ih =>
    intro x h
    have h1 : applyRule q.1 q.2 x = x := applyRule_id q.2 (h q (by simp))
    simp only [List.foldl_cons, h1]
    exact ih x (fun p hp => h p (by simp [hp]))

/-- The six-substitution pass of `rewrite_asset_paths` is idempotent on
arbitrary text. -/
theorem rewriteChars_idem (cs : List Char) :
    rewriteChars (rewriteChars cs) = rewriteChars cs := by
  unfold rewriteChars
  exact idFold rules _ (fun p hp => establishFold rules (fun _ hq => hq) cs p hp)

theorem rewriteContent_idem (s : String) :
    rewriteContent (rewriteContent s) = rewriteContent s := by
  unfold rewriteContent
  exact congrArg String.mk (rewriteChars_idem s.data)

end Rewriter

namespace Reorg

/-! ## Filesystem and git world

The mutable state the script acts on: working-tree files (path segments
mapped to content), directories created with `mkdir -p`, the set of
git-tracked paths, a commit counter, created backup archives, and the
script's output (`log`); `phases` collects exactly the headers printed
through the script's `log` function.  `dirty` models a non-empty
`git status --porcelain`: it is set by moves, adds and content writes
and cleared by a commit. -/

structure World where
  files : List (List String × String)
  dirs : List (List String)
  tracked : List (List String)
  isRepo : Bool
  dirty : Bool
  commits : Nat
  backups : List String
  log : List String
  phases : List String
deriving DecidableEq, Repr

/-- Configuration of a run: `WEBROOT`, `DRYRUN`, the timestamp used for
the backup archive name, and whether `tar` succeeds. -/
structure Cfg where
  webroot : String
  dryrun : Bool
  ts : String
  tarOk : Bool
deriving DecidableEq, Repr

/-- Split on `/` exactly as python's `str.split("/")` /
`os.path.join` boundaries behave, structurally recursive. -/
def splitSlashChars : List Char → List Char → List String
  | [], acc => [String.mk acc.reverse]
  | c :: cs, acc =>
    if c = '/' then String.mk acc.reverse :: splitSlashChars cs []
    else splitSlashChars cs (c :: acc)

def splitSlash (s : String) : List String :=
  splitSlashChars s.data []

/-- The publish root as path segments. -/
def Cfg.rootSegs (cfg : Cfg) : List String :=
  splitSlash cfg.webroot

def addLog (w : World) (s : String) : World :=
  { w with log := w.log ++ [s] }

/-- The script's `log` function: a phase header. -/
def addPhase (w : World) (s : String) : World :=
  { w with log := w.log ++ [s], phases := w.phases ++ [s] }

/-- Join path segments with `/` (structurally recursive so that the
kernel can evaluate it). -/
def pathStr : List String → String
  | [] => ""
  | [x] => x
  | x :: xs => x ++ "/" ++ pathStr xs

def fileExists (w : World) (p : List String) : Bool :=
  w.files.any (fun pc => pc.1 == p)

def getFile (w : World) (p : List String) : Option String :=
  (w.files.find? (fun pc => pc.1 == p)).map Prod.snd

/-- A directory exists when it was created by `mkdir -p` or some file
lives strictly below it; the empty path is the working directory. -/
def dirExists (w : World) (p : List String) : Bool :=
  p == ([] : List String) || w.dirs.any (fun d => d == p) ||
    w.files.any (fun pc => p.isPrefixOf pc.1 && p.length < pc.1.length)

/-- Textual path normalization, `os.path.normpath` on segments:
collapses empty and `.` segments and resolves `..` against preceding
segments. -/
def normpathSegs (segs : List String) : List String :=
  segs.foldl (fun acc s =>
    if s = "" ∨ s = "." then acc
    else if s = ".." then
      match acc.getLast? with
      | some t => if t = ".." then acc ++ [s] else acc.dropLast
      | none => [s]
    else acc ++ [s]) []

/-- Existence as the OS reports it on a symlink-free tree: `.`/`..` and
empty segments are resolved, then the path must be a file or directory
of the modelled tree. -/
def pathExists (w : World) (p : List String) : Bool :=
  fileExists w (normpathSegs p) || dirExists w (normpathSegs p)

def pathIsDir (w : World) (p : List String) : Bool :=
  dirExists w (normpathSegs p)

/-- `is_tracked`: `git ls-files --error-unmatch` succeeds on a tracked
file or on a directory containing tracked files. -/
def is_tracked (w : World) (p : List String) : Bool :=
  w.tracked.any (fun t => p.isPrefixOf t)

/-- Write (create or truncate) a file, `cat > path`. -/
def setFile (w : World) (p : List String) (c : String) : World :=
  { w with
    files :=
      if w.files.any (fun pc => pc.1 == p) then
        w.files.map (fun pc => if pc.1 == p then (p, c) else pc)
      else w.files ++ [(p, c)],
    dirty := true }

/-- Rename `src` to `dst` in files, tracked paths and directories. -/
def movePathFs (w : World) (src dst : List String) : World :=
  let remap := fun (q : List String) =>
    if q == src then dst
    else if src.isPrefixOf q then dst ++ q.drop src.length
    else q
  { w with
    files := w.files.map (fun pc => (remap pc.1, pc.2)),
    tracked := w.tracked.map remap,
    dirs := w.dirs.map remap,
    dirty := true }

/-- `git mv src dst`: fails fatally when `dst` is an existing file;
moves `src` inside `dst` when `dst` is an existing directory; plain
rename otherwise. -/
def git_mv (w : World) (src dst : List String) : Except (Nat × World) World :=
  if fileExists w dst then .error (1, w)
  else if dirExists w dst then .ok (movePathFs w src (dst ++ [src.getLastD ""]))
  else .ok (movePathFs w src dst)

/-- `mkdir -p`: create the directory and every ancestor. -/
def mkdirP (w : World) (p : List String) : World :=
  let ps := (List.range p.length).map (fun i => p.take (i + 1))
  { w with dirs := ps.foldl (fun ds q => if ds.any (· == q) then ds else ds ++ [q]) w.dirs }

/-- `git add path` (skipped entirely in a dry run by the script). -/
def gitAdd (cfg : Cfg) (w : World) (p : List String) : World :=
  if cfg.dryrun then w
  else
    { w with
      tracked := if w.tracked.any (· == p) then w.tracked else w.tracked ++ [p],
      dirty := true }

/-! ## The script's functions -/

/-- `require_clean_git`: abort unless inside a repository with an empty
`git status --porcelain`. -/
def require_clean_git (w : World) : Except (Nat × World) World :=
  if ¬ w.isRepo then .error (1, addLog w "ERROR: Not inside a git repository.")
  else if w.dirty then
    .error (1, addLog w "ERROR: Working tree not clean. Commit/stash first.")
  else .ok w

def backupName (cfg : Cfg) : String :=
  "backup_before_reorg_" ++ cfg.ts ++ ".tar.gz"

/-- `backup_repo`: log the phase, then `run tar` -- a no-op message in a
dry run, otherwise the archive is created or `set -e` aborts with tar's
failure. -/
def backup_repo (cfg : Cfg) (w : World) : Except (Nat × World) World :=
  let w := addPhase w ("Creating backup: " ++ backupName cfg)
  if cfg.dryrun then .ok (addLog w "[DRYRUN] tar")
  else if cfg.tarOk then
    .ok (addLog { w with backups := w.backups ++ [backupName cfg] }
      ("Backup created: " ++ backupName cfg))
  else .error (1, w)

/-- `git_mv_if_exists_and_tracked`: move a tracked, existing path after
creating the destination's parent; otherwise report a skip and leave
everything unchanged. -/
def git_mv_if_exists_and_tracked (cfg : Cfg) (w : World) (src dst : List String) :
    Except (Nat × World) World :=
  if pathExists w src && is_tracked w src then
    if cfg.dryrun then
      .ok (addLog (addLog w ("[DRYRUN] mkdir -p " ++ pathStr dst.dropLast))
        ("[DRYRUN] git mv " ++ pathStr src ++ " " ++ pathStr dst))
    else git_mv (mkdirP w dst.dropLast) src dst
  else .ok (addLog w ("Skipping (not tracked or missing): " ++ pathStr src))

/-- The exact text `write_redirect_stub` emits for a target (the
heredoc with `${target}` already interpolated by the enclosing
double-quoted string). -/
def stubMeta (target : String) : String :=
  "<meta http-equiv=\"refresh\" content=\"0; url=" ++ target ++ "\" />"

def stubCanonical (target : String) : String :=
  "<link rel=\"canonical\" href=\"" ++ target ++ "\" />"

def stubScript (target : String) : String :=
  "<script>window.location.replace(\"" ++ target ++ "\");</script>"

def stubAnchor (target : String) : String :=
  "<a href=\"" ++ target ++ "\">Click here if you are not redirected.</a>"

def stubContent (target : String) : String :=
  "<!DOCTYPE html>\n<html lang=\"en\">\n<head>\n  <meta charset=\"UTF-8\" />\n  " ++
    stubMeta target ++ "\n  " ++ stubCanonical target ++
    "\n  <title>Redirecting…</title>\n  " ++ stubScript target ++
    "\n</head>\n<body>\n  <p>This page has moved. " ++ stubAnchor target ++
    "\n</body>\n</html>\n"

/-- `write_redirect_stub`: write the stub (through `run`, so a dry run
only logs). -/
def write_redirect_stub (cfg : Cfg) (w : World) (path : List String)
    (target : String) : World :=
  if cfg.dryrun then addLog w ("[DRYRUN] stub " ++ pathStr path ++ " -> " ++ target)
  else setFile w path (stubContent target)

end Reorg

namespace Reorg

/-! ## The python link checker -/

def isQuote (c : Char) : Bool := c = '"' || c = '\''

/-- Case-insensitive literal match (pattern given in lowercase),
returning the input after the pattern. -/
def matchCI : List Char → List Char → Option (List Char)
  | [], l => some l
  | _ :: _, [] => none
  | p :: ps, c :: cs => if lowerChar c = p then matchCI ps cs else none

/-- Match `(?:href|src)` case-insensitively at the head. -/
def matchAttrCI (cs : List Char) : Option (List Char) :=
  match matchCI "href".data cs with
  | some r => some r
  | none => matchCI "src".data cs

/-- Try `(?:href|src)\s*=\s*["']([^"']+)["']` at the head of the input;
on success return the captured group and the input after the match. -/
def tryRef (cs : List Char) : Option (List Char × List Char) :=
  match matchAttrCI cs with
  | none => none
  | some r1 =>
    match r1.dropWhile (fun c => isWs c) with
    | [] => none
    | c :: r3 =>
      if c = '=' then
        match r3.dropWhile (fun c => isWs c) with
        | [] => none
        | q :: r5 =>
          if isQuote q then
            match hd : r5.drop (r5.takeWhile (fun c => ¬ isQuote c)).length with
            | [] => none
            | q2 :: r7 =>
              if isQuote q2 ∧ r5.takeWhile (fun c => ¬ isQuote c) ≠ [] then
                some (r5.takeWhile (fun c => ¬ isQuote c), r7)
              else none
          else none
      else none

theorem matchCI_length : ∀ {p l r : List Char}, matchCI p l = some r →
    r.length + p.length = l.length := by
  intro p
  induction p with
  | nil => intro l r h; cases h; simp [matchCI] at *
  | cons x xs ih =>
    intro l r h
    match l with
    | [] => simp [matchCI] at h
    | c :: cs =>
      simp only [matchCI] at h
      split at h
      · have := ih h
        simp only [List.length_cons]
        omega
      · cases h

theorem matchAttrCI_lt {l r : List Char} (h : matchAttrCI l = some r) :
    r.length < l.length := by
  unfold matchAttrCI at h
  split at h
  · cases h
    next hm =>
    have := matchCI_length hm
    simp at this
    omega
  · have := matchCI_length h
    simp at this
    omega

theorem dropWhile_length_le (p : Char → Bool) (l : List Char) :
    (l.dropWhile p).length ≤ l.length := by
  induction l with
  | nil => simp
  | cons c cs ih =>
    simp only [List.dropWhile]
    split
    · exact Nat.le_succ_of_le ih
    · simp

theorem tryRef_length {cs cap rest : List Char}
    (h : tryRef cs = some (cap, rest)) : rest.length < cs.length := by
  unfold tryRef at h
  split at h
  · cases h
  · next r1 hA =>
    split at h
    · cases h
    · next c r3 hD =>
      split at h
      · split at h
        · cases h
        · next q r5 hD2 =>
          split at h
          · split at h
            · cases h
            · next q2 r7 hDrop =>
              split at h
              · cases h
                have h1 : r1.length < cs.length := matchAttrCI_lt hA
                have h2 : r3.length < r1.length := by
                  have := congrArg List.length hD
                  have := dropWhile_length_le (fun c => isWs c) r1
                  simp only [List.length_cons] at *
                  omega
                have h3 : r5.length < r3.length := by
                  have := congrArg List.length hD2
                  have := dropWhile_length_le (fun c => isWs c) r3
                  simp only [List.length_cons] at *
                  omega
                have h4 : rest.length < r5.length := by
                  have hl := congrArg List.length hDrop
                  rw [List.length_drop] at hl
                  simp only [List.length_cons] at hl
                  omega
                omega
              · cases h
          · cases h
      · cases h

/-- All capture groups of the regex over the input, leftmost first,
non-overlapping (`attr_re.findall(html)`), with explicit fuel so the
scan is structurally recursive. -/
def extractRefsF : Nat → List Char → List String
  | 0, _ => []
  | _ + 1, [] => []
  | fuel + 1, c :: cs' =>
    match tryRef (c :: cs') with
    | some (cap, rest) => String.mk cap :: extractRefsF fuel rest
    | none => extractRefsF fuel cs'

/-- The scan with just enough fuel to finish. -/
def extractRefs (cs : List Char) : List String :=
  extractRefsF cs.length cs

def takeUntilChar (c : Char) (l : List Char) : List Char :=
  l.takeWhile (· ≠ c)

/-- Python `str.strip()` on the ASCII whitespace that occurs here. -/
def stripChars (l : List Char) : List Char :=
  ((l.dropWhile (fun c => isWs c)).reverse.dropWhile (fun c => isWs c)).reverse

/-- `normalize_url`: strip a trailing fragment and query, then
whitespace. -/
def normalize_url (u : String) : String :=
  ⟨stripChars (takeUntilChar '?' (takeUntilChar '#' u.data))⟩

/-- `is_ignored`: empty and anchor-only values, and values whose
lower-cased form starts with one of the six external schemes. -/
def is_ignored (u : String) : Bool :=
  let v := stripChars u.data
  if v = [] then true
  else if "#".data.isPrefixOf v then true
  else
    let low := v.map lowerChar
    "http://".data.isPrefixOf low || "https://".data.isPrefixOf low ||
      "mailto:".data.isPrefixOf low || "tel:".data.isPrefixOf low ||
      "javascript:".data.isPrefixOf low || "data:".data.isPrefixOf low

def stripLeadSlashes (u : String) : String :=
  ⟨u.data.dropWhile (· = '/')⟩

/-- Resolve a reference: absolute site-rooted values against the
publish root (`os.path.join(WEBROOT, url.lstrip("/"))`), relative ones
against the referencing file's directory, textually normalized
(`os.path.normpath`). -/
def resolveTarget (root : List String) (filePath : List String) (url : String) :
    List String :=
  if "/".data.isPrefixOf url.data then root ++ splitSlash (stripLeadSlashes url)
  else normpathSegs (filePath.dropLast ++ splitSlash url)

/-- A reported broken link: source file, reference (as appended by the
checker), resolved candidate path. -/
structure Violation where
  file : List String
  url : String
  target : List String
deriving DecidableEq, Repr

/-- Process one extracted attribute value of one HTML file exactly as
the checker's loop body does. -/
def checkRef (root : List String) (w : World) (p : List String) (raw : String) :
    Option Violation :=
  let url := normalize_url raw
  if is_ignored url then none
  else if "//".data.isPrefixOf url.data then none
  else
    let t0 := resolveTarget root p url
    let t := if pathIsDir w t0 then t0 ++ ["index.html"] else t0
    if pathExists w t then none else some ⟨p, url, t⟩

def isHtmlName (p : List String) : Bool :=
  ".html".data.isSuffixOf (p.getLastD "").data

/-- The files `os.walk(WEBROOT)` visits whose name ends in `.html`. -/
def htmlFilesUnder (root : List String) (w : World) : List (List String × String) :=
  w.files.filter (fun pc =>
    root.isPrefixOf pc.1 && root.length < pc.1.length && isHtmlName pc.1)

/-- The full violation list (`bad`) the checker accumulates. -/
def checkLinks (root : List String) (w : World) : List Violation :=
  (htmlFilesUnder root w).flatMap
    (fun pc => (extractRefs pc.2.data).filterMap (checkRef root w pc.1))

end Reorg

namespace Reorg

/-! ## The orchestrator -/

/-- The in-place edit `rewrite_asset_paths` performs on one file: the
content of an `*.html` under the publish root is rewritten, any other
file is untouched. -/
def rewriteFile (cfg : Cfg) (pc : List String × String) : List String × String :=
  if cfg.rootSegs.isPrefixOf pc.1 && cfg.rootSegs.length < pc.1.length &&
      isHtmlName pc.1
  then (pc.1, Rewriter.rewriteContent pc.2) else pc

/-- `rewrite_asset_paths`: log the phase; in a dry run only report;
otherwise rewrite every `*.html` under the publish root in place. -/
def rewrite_asset_paths (cfg : Cfg) (w : World) : World :=
  let w := addPhase w "Rewriting asset paths in HTML to /assets/... (safe for nested pages)"
  if cfg.dryrun then addLog w ("[DRYRUN] Would rewrite paths under " ++ cfg.webroot)
  else
    let newFiles := w.files.map (rewriteFile cfg)
    { w with files := newFiles, dirty := w.dirty || decide (newFiles ≠ w.files) }

/-- `link_check`: log the phase; in a dry run only report; otherwise
compute the violation list and exit 2 when it is non-empty. -/
def link_check (cfg : Cfg) (w : World) : Except (Nat × World) World :=
  let w := addPhase w "Running local link check (href/src → file exists)"
  if cfg.dryrun then .ok (addLog w ("[DRYRUN] Would run link check under " ++ cfg.webroot))
  else
    let bad := checkLinks cfg.rootSegs w
    if bad = [] then .ok (addLog w "Link check passed.")
    else .error (2, addLog w "BROKEN LINKS FOUND:")

/-- A `git commit` block guarded by `DRYRUN != 1`: commit when the
porcelain status is non-empty, otherwise report. -/
def commitStep (cfg : Cfg) (msgNone : String) (w : World) : World :=
  if ¬ cfg.dryrun then
    if w.dirty then { w with commits := w.commits + 1, dirty := false }
    else addLog w msgNone
  else w

/-- `run "mkdir -p ..."`. -/
def runMkdir (cfg : Cfg) (w : World) (p : List String) : World :=
  if cfg.dryrun then addLog w ("[DRYRUN] mkdir -p " ++ pathStr p)
  else mkdirP w p

/-- `run "git mv ..."` at a call site without the tracked/existence
guard (used inside the restructuring blocks). -/
def runGitMv (cfg : Cfg) (w : World) (src dst : List String) :
    Except (Nat × World) World :=
  if cfg.dryrun then
    .ok (addLog w ("[DRYRUN] git mv " ++ pathStr src ++ " " ++ pathStr dst))
  else git_mv w src dst

/-- Phase 1 move list: the tracked directories and root files flattened
into the publish root. -/
def flattenMoves (cfg : Cfg) : List (List String × List String) :=
  (["css", "js", "img", "downloads", "JC", "index.html", "jc_guide.html",
    "jc-october-2025.html", "JC-2025-10-14.html", "JC-JAN-2026.html",
    "summary-2025.html", "JC-Pre-session-Sept-2025.pdf"]).map
    (fun f => ([f], cfg.rootSegs ++ [f]))

/-- Guide restructuring: move `jc_guide.html` to `guide/index.html` and
stub the legacy name.  The two `git checkout` branch flips in the
script (`--orphan __tmp__` and back, both `|| true`) do not touch the
tracked tree and are modelled as no-ops. -/
def guideBlock (cfg : Cfg) (w : World) : Except (Nat × World) World := do
  if fileExists w (cfg.rootSegs ++ ["jc_guide.html"]) then
    let w ← runGitMv cfg w (cfg.rootSegs ++ ["jc_guide.html"])
      (cfg.rootSegs ++ ["guide", "index.html"])
    let w := write_redirect_stub cfg w (cfg.rootSegs ++ ["jc_guide.html"]) "/guide/"
    return gitAdd cfg w (cfg.rootSegs ++ ["jc_guide.html"])
  else
    return w

/-- The body run for the selected October source: move it to the
canonical session index, then stub both legacy names and `git add`
them. -/
def octMove (cfg : Cfg) (w : World) (ps : List String) :
    Except (Nat × World) World := do
  let w ← runGitMv cfg w ps (cfg.rootSegs ++ ["sessions", "2025", "10", "index.html"])
  let w := write_redirect_stub cfg w (cfg.rootSegs ++ ["JC-2025-10-14.html"])
    "/sessions/2025/10/"
  let w := write_redirect_stub cfg w (cfg.rootSegs ++ ["jc-october-2025.html"])
    "/sessions/2025/10/"
  return gitAdd cfg (gitAdd cfg w (cfg.rootSegs ++ ["JC-2025-10-14.html"]))
    (cfg.rootSegs ++ ["jc-october-2025.html"])

/-- October session restructuring: prefer `JC-2025-10-14.html`, fall
back to `jc-october-2025.html`; stub both legacy names. -/
def octBlock (cfg : Cfg) (w : World) : Except (Nat × World) World :=
  if fileExists w (cfg.rootSegs ++ ["JC-2025-10-14.html"]) then
    octMove cfg w (cfg.rootSegs ++ ["JC-2025-10-14.html"])
  else if fileExists w (cfg.rootSegs ++ ["jc-october-2025.html"]) then
    octMove cfg w (cfg.rootSegs ++ ["jc-october-2025.html"])
  else pure w

/-- January 2026 session restructuring. -/
def janBlock (cfg : Cfg) (w : World) : Except (Nat × World) World := do
  if fileExists w (cfg.rootSegs ++ ["JC-JAN-2026.html"]) then
    let w ← runGitMv cfg w (cfg.rootSegs ++ ["JC-JAN-2026.html"])
      (cfg.rootSegs ++ ["sessions", "2026", "01", "index.html"])
    let w := write_redirect_stub cfg w (cfg.rootSegs ++ ["JC-JAN-2026.html"])
      "/sessions/2026/01/"
    return gitAdd cfg w (cfg.rootSegs ++ ["JC-JAN-2026.html"])
  else
    return w

/-- Summary page restructuring. -/
def summaryBlock (cfg : Cfg) (w : World) : Except (Nat × World) World := do
  if fileExists w (cfg.rootSegs ++ ["summary-2025.html"]) then
    let w ← runGitMv cfg w (cfg.rootSegs ++ ["summary-2025.html"])
      (cfg.rootSegs ++ ["summaries", "2025", "index.html"])
    let w := write_redirect_stub cfg w (cfg.rootSegs ++ ["summary-2025.html"])
      "/summaries/2025/"
    return gitAdd cfg w (cfg.rootSegs ++ ["summary-2025.html"])
  else
    return w

/-- One guarded asset move: `if [[ -d "$WEBROOT/<name>" ]]` then the
tracked move into `assets/<name>`. -/
def assetStep (cfg : Cfg) (name : String) (w : World) : Except (Nat × World) World :=
  if dirExists w (cfg.rootSegs ++ [name]) then
    git_mv_if_exists_and_tracked cfg w (cfg.rootSegs ++ [name])
      (cfg.rootSegs ++ ["assets", name])
  else
    pure w

/-- Phase 2 asset moves: `css`, `js`, `img` fanned under `assets/`. -/
def assetMoves (cfg : Cfg) (w : World) : Except (Nat × World) World :=
  assetStep cfg "css" w >>= assetStep cfg "js" >>= assetStep cfg "img"

/-- Web-root preparation: the phase header and `mkdir -p "$WEBROOT"`. -/
def prepPhase (cfg : Cfg) (w : World) : Except (Nat × World) World :=
  pure (runMkdir cfg (addPhase w ("Preparing web root: " ++ cfg.webroot)) cfg.rootSegs)

/-- Phase 1: the moves into the publish root followed by the first
commit block. -/
def flattenPhase (cfg : Cfg) (w : World) : Except (Nat × World) World :=
  ((flattenMoves cfg).foldlM
      (fun w sd => git_mv_if_exists_and_tracked cfg w sd.1 sd.2)
      (addPhase w ("Moving tracked site content into " ++ cfg.webroot ++ " (git mv)"))) >>=
    fun w => pure (commitStep cfg "No tracked moves detected (maybe already moved)." w)

/-- Phase 2 directory skeleton. -/
def mkdirsPhase (cfg : Cfg) (w : World) : Except (Nat × World) World :=
  pure (runMkdir cfg (runMkdir cfg (runMkdir cfg (runMkdir cfg (runMkdir cfg
    (runMkdir cfg (runMkdir cfg
      (addPhase w ("Creating clean structure under " ++ cfg.webroot))
      (cfg.rootSegs ++ ["assets", "css"]))
      (cfg.rootSegs ++ ["assets", "js"]))
      (cfg.rootSegs ++ ["assets", "img"]))
      (cfg.rootSegs ++ ["guide"]))
      (cfg.rootSegs ++ ["sessions", "2025", "10"]))
      (cfg.rootSegs ++ ["sessions", "2026", "01"]))
      (cfg.rootSegs ++ ["summaries", "2025"]))

/-- Phase 2 relocations: asset fan-out and the four document blocks. -/
def blocksPhase (cfg : Cfg) (w : World) : Except (Nat × World) World :=
  assetMoves cfg w >>= guideBlock cfg >>= octBlock cfg >>= janBlock cfg >>=
    summaryBlock cfg

/-- Final stretch: rewrite, link check, the second commit block, the
DONE header and the next-steps notes. -/
def validatePhase (cfg : Cfg) (w : World) : Except (Nat × World) World :=
  link_check cfg (rewrite_asset_paths cfg w) >>= fun w =>
    pure (addLog (addLog (addLog (addLog
      (addPhase (commitStep cfg "No changes to commit (already organized?)." w) "DONE")
      "Next steps:")
      ("1) GitHub: Settings: Pages: Source: main branch: Folder: /" ++ cfg.webroot))
      ("2) DreamHost: upload " ++ cfg.webroot ++ "/* to your web root"))
      "3) Test legacy URLs and new clean URLs")

/-- `main`: the whole pipeline. -/
def main (cfg : Cfg) (w : World) : Except (Nat × World) World :=
  require_clean_git w >>= backup_repo cfg >>= prepPhase cfg >>= flattenPhase cfg >>=
    mkdirsPhase cfg >>= blocksPhase cfg >>= validatePhase cfg

end Reorg

namespace Reorg

/-! ## Claim-facing definitions -/

/-- The world a run ends in, whether it exits zero or aborts (`set -e`
kills the process but the filesystem persists). -/
def worldOf : Except (Nat × World) World → World
  | .ok w => w
  | .error e => e.2

/-- The checker's complete skip test on a raw attribute value: the
value is normalized, then dropped when `is_ignored` or
protocol-relative. -/
def refSkipped (u : String) : Bool :=
  is_ignored (normalize_url u) || "//".data.isPrefixOf (normalize_url u).data

/-- The candidate path the checker tests, with the implicit index
document appended for directories. -/
def resolveWithIndex (root : List String) (w : World) (p : List String)
    (u : String) : List String :=
  let t0 := resolveTarget root p (normalize_url u)
  if pathIsDir w t0 then t0 ++ ["index.html"] else t0

/-- Specification-side reading of the link-check contract: every
non-ignorable `href`/`src` value of every HTML file under the root
resolves to an existing file. -/
def localMustResolve (root : List String) (w : World) : Prop :=
  ∀ p c, (p, c) ∈ htmlFilesUnder root w →
    ∀ u, u ∈ extractRefs c.data →
      refSkipped u = false →
        pathExists w (resolveWithIndex root w p u) = true

/-- The ignorable classes exactly as the claim words them: empty,
anchor-only, or carrying one of the scheme prefixes `http:`, `https:`,
`mailto:`, `tel:`, `javascript:`, `data:`, or `//`. -/
def ignorableSpecC5 (u : String) : Bool :=
  u = "" || "#".data.isPrefixOf u.data ||
    "http:".data.isPrefixOf u.data || "https:".data.isPrefixOf u.data ||
    "mailto:".data.isPrefixOf u.data || "tel:".data.isPrefixOf u.data ||
    "javascript:".data.isPrefixOf u.data || "data:".data.isPrefixOf u.data ||
    "//".data.isPrefixOf u.data

/-- The corrected ignorable classes: after stripping fragment, query
and surrounding whitespace, the value is empty, or (case-insensitively)
prefixed by `http://`, `https://`, `mailto:`, `tel:`, `javascript:`,
`data:`, or is protocol-relative. -/
def ignorableAmendedC5 (u : String) : Bool :=
  let v := stripChars (takeUntilChar '?' (takeUntilChar '#' u.data))
  v = ([] : List Char) ||
    "http://".data.isPrefixOf (v.map lowerChar) ||
    "https://".data.isPrefixOf (v.map lowerChar) ||
    "mailto:".data.isPrefixOf (v.map lowerChar) ||
    "tel:".data.isPrefixOf (v.map lowerChar) ||
    "javascript:".data.isPrefixOf (v.map lowerChar) ||
    "data:".data.isPrefixOf (v.map lowerChar) ||
    "//".data.isPrefixOf v

/-- The working tree, index and history are untouched: only output
(log, phases) may differ. -/
def treePreserved (w w' : World) : Prop :=
  w'.files = w.files ∧ w'.dirs = w.dirs ∧ w'.tracked = w.tracked ∧
    w'.commits = w.commits ∧ w'.backups = w.backups ∧ w'.dirty = w.dirty ∧
    w'.isRepo = w.isRepo

/-- The seven phase headers a complete run reports, in order. -/
def phaseList (cfg : Cfg) : List String :=
  ["Creating backup: " ++ backupName cfg,
   "Preparing web root: " ++ cfg.webroot,
   "Moving tracked site content into " ++ cfg.webroot ++ " (git mv)",
   "Creating clean structure under " ++ cfg.webroot,
   "Rewriting asset paths in HTML to /assets/... (safe for nested pages)",
   "Running local link check (href/src → file exists)",
   "DONE"]

/-- Substring containment, stated over character data. -/
def containsStr (s sub : String) : Prop :=
  ∃ pre post : List Char, s.data = pre ++ sub.data ++ post

end Reorg

namespace Reorg

theorem rewriteFile_idem (cfg : Cfg) (pc : List String × String) :
    rewriteFile cfg (rewriteFile cfg pc) = rewriteFile cfg pc := by
  rcases pc with ⟨p, c⟩
  by_cases h : (cfg.rootSegs.isPrefixOf p && decide (cfg.rootSegs.length < p.length) &&
      isHtmlName p) = true
  · simp [rewriteFile, h, Rewriter.rewriteContent_idem]
  · simp [rewriteFile, h]

theorem rewrite_files (cfg : Cfg) (hdry : cfg.dryrun = false) (w : World) :
    (rewrite_asset_paths cfg w).files = w.files.map (rewriteFile cfg) := by
  simp [rewrite_asset_paths, hdry, addPhase]

end Reorg

/-- Claim C2: the asset-path rewrite is idempotent -- on every file
content, and on the whole tree for a real (non-dry) pass: a reference
rewritten to the canonical `/assets/` prefix no longer matches any
legacy pattern, so the second pass changes no byte. -/
theorem claim_C2_rewrite_idempotent :
    (∀ s : String,
      Rewriter.rewriteContent (Rewriter.rewriteContent s) = Rewriter.rewriteContent s) ∧
    ∀ cfg : Reorg.Cfg, cfg.dryrun = false → ∀ w : Reorg.World,
      (Reorg.rewrite_asset_paths cfg (Reorg.rewrite_asset_paths cfg w)).files =
        (Reorg.rewrite_asset_paths cfg w).files := by
  constructor
  · exact Rewriter.rewriteContent_idem
  · intro cfg hdry w
    rw [Reorg.rewrite_files cfg hdry, Reorg.rewrite_files cfg hdry, List.map_map]
    exact List.map_congr_left (fun a _ => Reorg.rewriteFile_idem cfg a)

namespace Reorg

def c2cfg : Cfg := { webroot := "docs", dryrun := false, ts := "20251011_000000", tarOk := true }

def c2w : World :=
  { files := [(["docs", "a.html"], "<a href=\"css/x.css\">")]
    dirs := [], tracked := [], isRepo := true, dirty := false, commits := 0
    backups := [], log := [], phases := [] }

end Reorg

/-- Witness for C2 at a concrete configuration and world. -/
theorem claim_C2_witness :
    (Reorg.rewrite_asset_paths Reorg.c2cfg
        (Reorg.rewrite_asset_paths Reorg.c2cfg Reorg.c2w)).files =
      (Reorg.rewrite_asset_paths Reorg.c2cfg Reorg.c2w).files :=
  claim_C2_rewrite_idempotent.2 Reorg.c2cfg rfl Reorg.c2w

namespace Reorg

def c3cfg : Cfg := { webroot := "docs", dryrun := false, ts := "20251011_000001", tarOk := true }

def c3w : World :=
  { files := [(["index.html"], "x")]
    dirs := [], tracked := [["index.html"]], isRepo := true, dirty := false
    commits := 0, backups := [], log := [], phases := [] }

end Reorg

/-- Claim C3: moving a missing or untracked source is a reported skip:
the operation returns normally (no fatal error), logs a `Skipping`
message, and changes nothing -- in particular the destination. -/
theorem claim_C3_skip :
    ∀ (cfg : Reorg.Cfg) (w : Reorg.World) (src dst : List String),
      (Reorg.pathExists w src && Reorg.is_tracked w src) = false →
      Reorg.git_mv_if_exists_and_tracked cfg w src dst =
        .ok (Reorg.addLog w ("Skipping (not tracked or missing): " ++ Reorg.pathStr src)) ∧
      Reorg.treePreserved w
        (Reorg.addLog w ("Skipping (not tracked or missing): " ++ Reorg.pathStr src)) ∧
      Reorg.getFile (Reorg.addLog w ("Skipping (not tracked or missing): " ++ Reorg.pathStr src)) dst =
        Reorg.getFile w dst := by
  intro cfg w src dst h
  refine ⟨?_, ?_, rfl⟩
  · simp [Reorg.git_mv_if_exists_and_tracked, h]
  · simp [Reorg.treePreserved, Reorg.addLog]

/-- Witness for C3: skipping an absent path at a concrete world. -/
theorem claim_C3_witness :
    Reorg.git_mv_if_exists_and_tracked Reorg.c3cfg Reorg.c3w ["nope"] ["docs", "nope"] =
      .ok (Reorg.addLog Reorg.c3w ("Skipping (not tracked or missing): " ++ Reorg.pathStr ["nope"])) :=
  (claim_C3_skip Reorg.c3cfg Reorg.c3w ["nope"] ["docs", "nope"] (by decide)).1

namespace Reorg

theorem find?_map_replace (l : List (List String × String)) (p : List String)
    (c : String) :
    (l.map (fun pc => if pc.1 == p then (p, c) else pc)).find? (fun pc => pc.1 == p) =
      if l.any (fun pc => pc.1 == p) then some (p, c) else none := by
  induction l with
  | nil => simp
  | cons x xs ih =>
    simp only [List.map_cons, List.any_cons]
    by_cases hx : (x.1 == p) = true
    · rw [if_pos hx]
      rw [List.find?_cons_of_pos _ (by simp)]
      simp [hx]
    · rw [if_neg hx]
      rw [List.find?_cons_of_neg _ (by simpa using hx), ih]
      have hxf : (x.1 == p) = false := by simpa using hx
      simp only [hxf, Bool.false_or]

theorem map_replace_id {l : List (List String × String)} {p : List String}
    {c : String} (h : l.any (fun pc => pc.1 == p) = false) :
    l.map (fun pc => if pc.1 == p then (p, c) else pc) = l := by
  induction l with
  | nil => rfl
  | cons x xs ih =>
    simp only [List.any_cons, Bool.or_eq_false_iff] at h
    simp only [List.map_cons]
    rw [if_neg (by simp [h.1]), ih h.2]

theorem getFile_setFile (w : World) (p : List String) (c : String) :
    getFile (setFile w p c) p = some c := by
  unfold getFile setFile
  by_cases h : w.files.any (fun pc => pc.1 == p) = true
  · simp only [h, if_true]
    rw [find?_map_replace]
    simp [h]
  · rw [if_neg h]
    have hn : w.files.find? (fun pc => pc.1 == p) = none := by
      rw [List.find?_eq_none]
      intro x hx hc
      apply h
      simp only [List.any_eq_true]
      exact ⟨x, hx, hc⟩
    simp [List.find?_append, hn]

theorem setFile_setFile (w : World) (p : List String) (c : String) :
    setFile (setFile w p c) p c = setFile w p c := by
  unfold setFile
  by_cases h : w.files.any (fun pc => pc.1 == p) = true
  · simp only [h, if_true]
    have hany : (w.files.map (fun pc => if pc.1 == p then (p, c) else pc)).any
        (fun pc => pc.1 == p) = true := by
      simp only [List.any_eq_true] at h ⊢
      obtain ⟨x, hx, hc⟩ := h
      refine ⟨(p, c), ?_, by simp⟩
      refine List.mem_map.mpr ⟨x, hx, ?_⟩
      rw [if_pos hc]
    simp only [hany, if_true, List.map_map]
    congr 1
    apply List.map_congr_left
    intro a _
    by_cases ha : (a.1 == p) = true <;> simp [Function.comp, ha]
  · rw [if_neg h]
    have hany : ((w.files ++ [(p, c)]).any (fun pc => pc.1 == p)) = true := by
      simp
    simp only [hany, if_true, List.map_append]
    have hf : w.files.any (fun pc => pc.1 == p) = false := by
      cases hb : w.files.any (fun pc => pc.1 == p) with
      | true => exact absurd hb h
      | false => rfl
    rw [map_replace_id hf]
    simp

end Reorg

/-- Claim C4: the redirect stub written at a path contains the
meta-refresh tag `content="0; url=<target>"`, a canonical link to the
target, an inline `location.replace` script, and a visible fallback
anchor; re-invoking with the same arguments overwrites the stub with
byte-identical content (the text is a pure function of the target, no
timestamps). -/
theorem claim_C4_write_stub :
    ∀ t : String,
      Reorg.containsStr (Reorg.stubContent t) (Reorg.stubMeta t) ∧
      Reorg.containsStr (Reorg.stubContent t) (Reorg.stubCanonical t) ∧
      Reorg.containsStr (Reorg.stubContent t) (Reorg.stubScript t) ∧
      Reorg.containsStr (Reorg.stubContent t) (Reorg.stubAnchor t) ∧
      ∀ (cfg : Reorg.Cfg) (w : Reorg.World) (p : List String),
        cfg.dryrun = false →
        Reorg.getFile (Reorg.write_redirect_stub cfg w p t) p =
          some (Reorg.stubContent t) ∧
        Reorg.write_redirect_stub cfg (Reorg.write_redirect_stub cfg w p t) p t =
          Reorg.write_redirect_stub cfg w p t := by
  intro t
  refine ⟨?_, ?_, ?_, ?_, ?_⟩
  · exact ⟨("<!DOCTYPE html>\n<html lang=\"en\">\n<head>\n  <meta charset=\"UTF-8\" />\n  ").data,
      ("\n  " ++ Reorg.stubCanonical t ++ "\n  <title>Redirecting…</title>\n  " ++
        Reorg.stubScript t ++ "\n</head>\n<body>\n  <p>This page has moved. " ++
        Reorg.stubAnchor t ++ "\n</body>\n</html>\n").data,
      by simp [Reorg.stubContent, String.data_append]⟩
  · exact ⟨("<!DOCTYPE html>\n<html lang=\"en\">\n<head>\n  <meta charset=\"UTF-8\" />\n  " ++
        Reorg.stubMeta t ++ "\n  ").data,
      ("\n  <title>Redirecting…</title>\n  " ++ Reorg.stubScript t ++
        "\n</head>\n<body>\n  <p>This page has moved. " ++ Reorg.stubAnchor t ++
        "\n</body>\n</html>\n").data,
      by simp [Reorg.stubContent, String.data_append]⟩
  · exact ⟨("<!DOCTYPE html>\n<html lang=\"en\">\n<head>\n  <meta charset=\"UTF-8\" />\n  " ++
        Reorg.stubMeta t ++ "\n  " ++ Reorg.stubCanonical t ++
        "\n  <title>Redirecting…</title>\n  ").data,
      ("\n</head>\n<body>\n  <p>This page has moved. " ++ Reorg.stubAnchor t ++
        "\n</body>\n</html>\n").data,
      by simp [Reorg.stubContent, String.data_append]⟩
  · exact ⟨("<!DOCTYPE html>\n<html lang=\"en\">\n<head>\n  <meta charset=\"UTF-8\" />\n  " ++
        Reorg.stubMeta t ++ "\n  " ++ Reorg.stubCanonical t ++
        "\n  <title>Redirecting…</title>\n  " ++ Reorg.stubScript t ++
        "\n</head>\n<body>\n  <p>This page has moved. ").data,
      ("\n</body>\n</html>\n").data,
      by simp [Reorg.stubContent, String.data_append]⟩
  · intro cfg w p hdry
    constructor
    · simp only [Reorg.write_redirect_stub, hdry, Bool.false_eq_true, if_false]
      exact Reorg.getFile_setFile w p (Reorg.stubContent t)
    · simp only [Reorg.write_redirect_stub, hdry, Bool.false_eq_true, if_false]
      exact Reorg.setFile_setFile w p (Reorg.stubContent t)

namespace Reorg

def c4cfg : Cfg := { webroot := "docs", dryrun := false, ts := "20251011_000002", tarOk := true }

def c4w : World :=
  { files := [], dirs := [], tracked := [], isRepo := true, dirty := false
    commits := 0, backups := [], log := [], phases := [] }

end Reorg

/-- Witness for C4: writing a stub for `/guide/` into an empty tree. -/
theorem claim_C4_witness :
    Reorg.getFile (Reorg.write_redirect_stub Reorg.c4cfg Reorg.c4w
        ["docs", "jc_guide.html"] "/guide/") ["docs", "jc_guide.html"] =
      some (Reorg.stubContent "/guide/") :=
  ((claim_C4_write_stub "/guide/").2.2.2.2 Reorg.c4cfg Reorg.c4w
    ["docs", "jc_guide.html"] rfl).1

namespace Reorg

theorem data_mk (l : List Char) : (String.mk l).data = l := rfl

theorem dropWhile_append_self (p : Char → Bool) (l : List Char) :
    ∃ t, t ++ l.dropWhile p = l := by
  induction l with
  | nil => exact ⟨[], rfl⟩
  | cons x xs ih =>
    by_cases hx : p x = true
    · obtain ⟨t, ht⟩ := ih
      exact ⟨x :: t, by simp [List.dropWhile, hx, ht]⟩
    · exact ⟨[], by simp [List.dropWhile, hx]⟩

theorem head?_dropWhile (p : Char → Bool) (l : List Char) :
    ∀ c, (l.dropWhile p).head? = some c → p c = false := by
  induction l with
  | nil => intro c hc; simp [List.dropWhile] at hc
  | cons x xs ih =>
    intro c hc
    by_cases hx : p x = true
    · rw [List.dropWhile_cons, if_pos hx] at hc
      exact ih c hc
    · rw [List.dropWhile_cons, if_neg hx] at hc
      simp only [List.head?_cons, Option.some.injEq] at hc
      cases hc
      simpa using hx

theorem getLast?_append_right :
    ∀ (l₁ l₂ : List Char), l₂ ≠ [] → (l₁ ++ l₂).getLast? = l₂.getLast? := by
  intro l₁
  induction l₁ with
  | nil => intro l₂ _; rfl
  | cons x xs ih =>
    intro l₂ h
    rw [List.cons_append]
    match h2 : xs ++ l₂ with
    | [] =>
      exact absurd (List.append_eq_nil.mp h2).2 h
    | y :: ys =>
      rw [List.getLast?_cons_cons, ← h2, ih l₂ h]

theorem dropWhile_eq_self_of_head? (p : Char → Bool) (l : List Char)
    (h : ∀ c, l.head? = some c → p c = false) : l.dropWhile p = l := by
  cases l with
  | nil => rfl
  | cons x xs =>
    rw [List.dropWhile_cons, if_neg (by simp [h x rfl])]

theorem stripChars_head? (l : List Char) :
    ∀ c, (stripChars l).head? = some c → isWs c = false := by
  intro c hc
  unfold stripChars at hc
  rw [List.head?_reverse] at hc
  have hne : ((l.dropWhile (fun c => isWs c)).reverse.dropWhile (fun c => isWs c)) ≠ [] := by
    intro hnil
    rw [hnil] at hc
    simp at hc
  obtain ⟨t, ht⟩ := dropWhile_append_self (fun c => isWs c)
    ((l.dropWhile (fun c => isWs c)).reverse)
  have h2 : ((l.dropWhile (fun c => isWs c)).reverse).getLast? = some c := by
    rw [← ht, getLast?_append_right t _ hne]
    exact hc
  rw [List.getLast?_reverse] at h2
  exact head?_dropWhile _ l c h2

theorem stripChars_getLast? (l : List Char) :
    ∀ c, (stripChars l).getLast? = some c → isWs c = false := by
  intro c hc
  unfold stripChars at hc
  rw [List.getLast?_reverse] at hc
  exact head?_dropWhile _ _ c hc

theorem stripChars_idem (l : List Char) :
    stripChars (stripChars l) = stripChars l := by
  have lem : ∀ S : List Char, (∀ c, S.head? = some c → isWs c = false) →
      (∀ c, S.getLast? = some c → isWs c = false) → stripChars S = S := by
    intro S h1 h2
    unfold stripChars
    rw [dropWhile_eq_self_of_head? _ _ h1]
    rw [dropWhile_eq_self_of_head? _ _
      (fun c hc => h2 c (by rwa [List.head?_reverse] at hc))]
    exact List.reverse_reverse S
  exact lem _ (stripChars_head? l) (stripChars_getLast? l)

theorem mem_stripChars {a : Char} {l : List Char} (h : a ∈ stripChars l) : a ∈ l := by
  unfold stripChars at h
  rw [List.mem_reverse] at h
  have h2 := (List.dropWhile_sublist (l := (l.dropWhile (fun c => isWs c)).reverse)
    (p := fun c => isWs c)).subset h
  rw [List.mem_reverse] at h2
  exact (List.dropWhile_sublist (l := l) (p := fun c => isWs c)).subset h2

theorem hash_free {l : List Char} (h : '#' ∉ l) :
    "#".data.isPrefixOf (stripChars l) = false := by
  cases hS : stripChars l with
  | nil => rfl
  | cons c cs =>
    have hc : c ∈ stripChars l := by rw [hS]; exact List.mem_cons_self c cs
    have hne : c ≠ '#' := by
      intro hEq
      exact h (hEq ▸ mem_stripChars hc)
    show (['#'].isPrefixOf (c :: cs)) = false
    simp [List.isPrefixOf, Ne.symm hne]

end Reorg

/-- Claim C5 counterexample: the value `http:example.com` carries the
scheme prefix `http:` and is therefore ignorable under the claim's
classes, yet the checker does not skip it (its code requires
`http://`), so it is treated as a local reference. -/
theorem claim_C5_counterexample :
    Reorg.ignorableSpecC5 "http:example.com" = true ∧
    Reorg.refSkipped "http:example.com" = false := by
  constructor <;> decide

/-- Claim C5 as amended: the checker skips a value exactly when, after
stripping the trailing fragment and query and surrounding whitespace,
the value is empty (which covers empty and anchor-only raw values), or
its lower-cased form is prefixed by `http://`, `https://`, `mailto:`,
`tel:`, `javascript:`, or `data:`, or it is protocol-relative (`//`). -/
theorem claim_C5_amended :
    ∀ u : String, Reorg.refSkipped u = Reorg.ignorableAmendedC5 u := by
  intro u
  have hnotmem : '#' ∉ Reorg.takeUntilChar '?' (Reorg.takeUntilChar '#' u.data) := by
    intro hmem
    have h2 := (List.takeWhile_sublist (p := fun c => decide (c ≠ '?'))).subset hmem
    have h3 := List.mem_takeWhile_imp h2
    simp at h3
  have hhash := Reorg.hash_free hnotmem
  have hidem := Reorg.stripChars_idem
    (Reorg.takeUntilChar '?' (Reorg.takeUntilChar '#' u.data))
  unfold Reorg.refSkipped Reorg.ignorableAmendedC5 Reorg.is_ignored Reorg.normalize_url
  simp only [Reorg.data_mk, hidem]
  by_cases hE : Reorg.stripChars (Reorg.takeUntilChar '?' (Reorg.takeUntilChar '#' u.data)) = []
  · simp [hE]
  · simp [hE, hhash, Bool.or_assoc, Bool.false_or]

namespace Reorg

theorem checkRef_none_iff (root : List String) (w : World) (p : List String)
    (u : String) :
    checkRef root w p u = none ↔
      (refSkipped u = true ∨ pathExists w (resolveWithIndex root w p u) = true) := by
  unfold checkRef refSkipped resolveWithIndex
  by_cases h1 : is_ignored (normalize_url u) = true
  · simp [h1]
  · by_cases h2 : "//".data.isPrefixOf (normalize_url u).data = true
    · simp [h1, h2]
    · by_cases h3 : pathExists w
        (if pathIsDir w (resolveTarget root p (normalize_url u)) then
          resolveTarget root p (normalize_url u) ++ ["index.html"]
        else resolveTarget root p (normalize_url u)) = true
      · simp [h1, h2, h3]
      · simp [h1, h2, h3]

theorem checkRef_some (root : List String) (w : World) (p : List String)
    (u : String) (hsk : refSkipped u = false)
    (hex : pathExists w (resolveWithIndex root w p u) = false) :
    checkRef root w p u =
      some ⟨p, normalize_url u, resolveWithIndex root w p u⟩ := by
  unfold refSkipped at hsk
  simp only [Bool.or_eq_false_iff] at hsk
  unfold checkRef resolveWithIndex
  unfold resolveWithIndex at hex
  simp [hsk.1, hsk.2, hex]

theorem flatMap_nil_iff {α β : Type} (f : α → List β) (l : List α) :
    l.flatMap f = [] ↔ ∀ x ∈ l, f x = [] := by
  induction l with
  | nil => simp
  | cons x xs ih => simp [List.flatMap_cons, List.append_eq_nil, ih]

theorem filterMap_nil_iff {α β : Type} (f : α → Option β) (l : List α) :
    l.filterMap f = [] ↔ ∀ x ∈ l, f x = none := by
  induction l with
  | nil => simp
  | cons x xs ih =>
    cases hx : f x with
    | none => simp [List.filterMap_cons, hx, ih]
    | some b => simp [List.filterMap_cons, hx]

end Reorg

/-- Claim C1 as amended: the link checker's violation list is empty
exactly when every non-skipped `href`/`src` value of every HTML file
under the root resolves (absolute values against the root, relative
values against the referencing file's directory, directories via the
implicit `index.html`); when violations exist, the full list is
reported, each entry carrying the source file, the reference as
normalized (fragment and query stripped -- not the raw text), and the
resolved candidate. -/
theorem claim_C1_link_check :
    ∀ (root : List String) (w : Reorg.World),
      (Reorg.checkLinks root w = [] ↔ Reorg.localMustResolve root w) ∧
      (∀ p c u, (p, c) ∈ Reorg.htmlFilesUnder root w →
        u ∈ Reorg.extractRefs c.data →
        Reorg.refSkipped u = false →
        Reorg.pathExists w (Reorg.resolveWithIndex root w p u) = false →
        (⟨p, Reorg.normalize_url u, Reorg.resolveWithIndex root w p u⟩ :
          Reorg.Violation) ∈ Reorg.checkLinks root w) := by
  intro root w
  constructor
  · unfold Reorg.checkLinks Reorg.localMustResolve
    rw [Reorg.flatMap_nil_iff]
    constructor
    · intro h p c hpc u hu hsk
      have h2 := (Reorg.filterMap_nil_iff _ _).mp (h (p, c) hpc) u hu
      rcases (Reorg.checkRef_none_iff root w p u).mp h2 with hs | he
      · rw [hsk] at hs; cases hs
      · exact he
    · intro h pc hpc
      rw [Reorg.filterMap_nil_iff]
      intro u hu
      rw [Reorg.checkRef_none_iff]
      cases hsk : Reorg.refSkipped u with
      | true => exact Or.inl rfl
      | false =>
        refine Or.inr (h pc.1 pc.2 ?_ u hu hsk)
        simpa using hpc
  · intro p c u hpc hu hsk hex
    unfold Reorg.checkLinks
    rw [List.mem_flatMap]
    exact ⟨(p, c), hpc,
      List.mem_filterMap.mpr ⟨u, hu, Reorg.checkRef_some root w p u hsk hex⟩⟩

namespace Reorg

def c1w : World :=
  { files := [(["docs", "page.html"], "<a href=\"missing.html#top\">x</a>")]
    dirs := [], tracked := [], isRepo := true, dirty := false, commits := 0
    backups := [], log := [], phases := [] }

end Reorg

set_option maxRecDepth 8000 in
/-- Claim C1 counterexample: the only reference in the tree is the raw
text `missing.html#top`, yet the reported violation carries the
normalized reference `missing.html` -- the checker appends the
fragment-stripped value, not the raw one, so the reported triple is not
(source file, raw reference, candidate). -/
theorem claim_C1_counterexample :
    Reorg.extractRefs ("<a href=\"missing.html#top\">x</a>".data) =
      ["missing.html#top"] ∧
    Reorg.checkLinks ["docs"] Reorg.c1w =
      [⟨["docs", "page.html"], "missing.html", ["docs", "missing.html"]⟩] ∧
    ("missing.html" : String) ≠ "missing.html#top" := by
  refine ⟨by decide, by decide, by decide⟩

set_option maxRecDepth 8000 in
/-- Witness for the amended C1 at a concrete world: the violation for
the unresolved reference is in the returned list. -/
theorem claim_C1_witness :
    (⟨["docs", "page.html"], "missing.html", ["docs", "missing.html"]⟩ :
      Reorg.Violation) ∈ Reorg.checkLinks ["docs"] Reorg.c1w :=
  (claim_C1_link_check ["docs"] Reorg.c1w).2 ["docs", "page.html"]
    "<a href=\"missing.html#top\">x</a>" "missing.html#top"
    (by decide) (by decide) (by decide) (by decide)

namespace Reorg

theorem main_err_no_repo {cfg : Cfg} {w : World} (hrepo : w.isRepo = false) :
    main cfg w = .error (1, addLog w "ERROR: Not inside a git repository.") := by
  have hreq : require_clean_git w =
      .error (1, addLog w "ERROR: Not inside a git repository.") := by
    simp [require_clean_git, hrepo]
  unfold main
  rw [hreq]
  rfl

theorem main_err_dirty {cfg : Cfg} {w : World} (hrepo : w.isRepo = true)
    (hdirty : w.dirty = true) :
    main cfg w = .error (1, addLog w "ERROR: Working tree not clean. Commit/stash first.") := by
  have hreq : require_clean_git w =
      .error (1, addLog w "ERROR: Working tree not clean. Commit/stash first.") := by
    simp [require_clean_git, hrepo, hdirty]
  unfold main
  rw [hreq]
  rfl

theorem main_err_backup {cfg : Cfg} {w : World} (hrepo : w.isRepo = true)
    (hdirty : w.dirty = false) (hdry : cfg.dryrun = false)
    (htar : cfg.tarOk = false) :
    main cfg w = .error (1, addPhase w ("Creating backup: " ++ backupName cfg)) := by
  have hreq : require_clean_git w = .ok w := by
    simp [require_clean_git, hrepo, hdirty]
  have hbak : backup_repo cfg w =
      .error (1, addPhase w ("Creating backup: " ++ backupName cfg)) := by
    simp [backup_repo, hdry, htar]
  unfold main
  rw [hreq]
  have hx : (Except.ok w >>= backup_repo cfg : Except (Nat × World) World) =
      backup_repo cfg w := rfl
  rw [hx, hbak]
  rfl

end Reorg

/-- Claim C6: when the tree is not a repository, or has uncommitted
changes, or the backup archive cannot be created, the pipeline exits
non-zero before touching the working tree, the index, or history. -/
theorem claim_C6_early_errors :
    ∀ (cfg : Reorg.Cfg) (w : Reorg.World),
      (w.isRepo = false ∨ w.dirty = true ∨
        (cfg.dryrun = false ∧ cfg.tarOk = false)) →
      ∃ e wf, Reorg.main cfg w = .error (e, wf) ∧ e ≠ 0 ∧
        Reorg.treePreserved w wf := by
  intro cfg w h
  by_cases hrepo : w.isRepo = false
  · exact ⟨1, _, Reorg.main_err_no_repo hrepo, by decide,
      by simp [Reorg.treePreserved, Reorg.addLog]⟩
  · have hrepo' : w.isRepo = true := by revert hrepo; cases w.isRepo <;> simp
    by_cases hdirty : w.dirty = true
    · exact ⟨1, _, Reorg.main_err_dirty hrepo' hdirty, by decide,
        by simp [Reorg.treePreserved, Reorg.addLog]⟩
    · have hdirty' : w.dirty = false := by revert hdirty; cases w.dirty <;> simp
      rcases h with h1 | h2 | ⟨hdry, htar⟩
      · exact absurd h1 hrepo
      · exact absurd h2 hdirty
      · exact ⟨1, _, Reorg.main_err_backup hrepo' hdirty' hdry htar, by decide,
          by simp [Reorg.treePreserved, Reorg.addPhase]⟩

namespace Reorg

def c6cfg : Cfg := { webroot := "docs", dryrun := false, ts := "20251011_000003", tarOk := false }

def c6w : World :=
  { files := [(["index.html"], "x")]
    dirs := [], tracked := [["index.html"]], isRepo := true, dirty := false
    commits := 0, backups := [], log := [], phases := [] }

end Reorg

/-- Witness for C6: a backup failure on a clean repository aborts with
the tree untouched. -/
theorem claim_C6_witness :
    ∃ e wf, Reorg.main Reorg.c6cfg Reorg.c6w = .error (e, wf) ∧ e ≠ 0 ∧
      Reorg.treePreserved Reorg.c6w wf :=
  claim_C6_early_errors Reorg.c6cfg Reorg.c6w (Or.inr (Or.inr ⟨rfl, rfl⟩))

namespace Reorg

def c9cfg : Cfg := { webroot := "docs", dryrun := false, ts := "20251011_000004", tarOk := true }

def c9w : World :=
  { files := [(["index.html"], "x"), (["jc_guide.html"], "hello")]
    dirs := [], tracked := [["index.html"], ["jc_guide.html"]]
    isRepo := true, dirty := false, commits := 0, backups := [], log := [], phases := [] }

end Reorg

set_option maxRecDepth 10000 in
/-- Claim C9 counterexample: a run that completes successfully (exit
zero, reaching DONE) on a clean tracked tree creates two commits -- the
orchestrator itself runs `git commit` after the flatten phase and after
the restructure phase. -/
theorem claim_C9_counterexample :
    (Reorg.main Reorg.c9cfg Reorg.c9w).isOk = true ∧
    (Reorg.worldOf (Reorg.main Reorg.c9cfg Reorg.c9w)).commits = 2 ∧
    Reorg.c9w.commits = 0 := by
  refine ⟨by decide, by decide, rfl⟩

/-- Claim C9 as amended: the tracked-move executor itself never
commits, but the orchestrator does -- a successful non-dry run on a
tree with tracked content commits twice; only the remaining follow-ups
(review, enabling hosting) are left to the operator. -/
theorem claim_C9_amended :
    (∀ (cfg : Reorg.Cfg) (w : Reorg.World) (src dst : List String),
      (Reorg.worldOf (Reorg.git_mv_if_exists_and_tracked cfg w src dst)).commits =
        w.commits) ∧
    (Reorg.worldOf (Reorg.main Reorg.c9cfg Reorg.c9w)).commits =
      Reorg.c9w.commits + 2 := by
  constructor
  · intro cfg w src dst
    unfold Reorg.git_mv_if_exists_and_tracked
    by_cases h : (Reorg.pathExists w src && Reorg.is_tracked w src) = true
    · rw [if_pos h]
      by_cases hd : cfg.dryrun = true
      · simp [hd, Reorg.worldOf, Reorg.addLog]
      · have hd' : cfg.dryrun = false := by revert hd; cases cfg.dryrun <;> simp
        rw [if_neg (by simp [hd'])]
        unfold Reorg.git_mv
        by_cases h1 : Reorg.fileExists (Reorg.mkdirP w dst.dropLast) dst = true
        case pos =>
          rw [if_pos h1]
          simp [Reorg.worldOf, Reorg.mkdirP]
        case neg =>
          rw [if_neg h1]
          by_cases h2 : Reorg.dirExists (Reorg.mkdirP w dst.dropLast) dst = true
          · rw [if_pos h2]
            simp [Reorg.worldOf, Reorg.movePathFs, Reorg.mkdirP]
          · rw [if_neg h2]
            simp [Reorg.worldOf, Reorg.movePathFs, Reorg.mkdirP]
    · rw [if_neg h]
      simp [Reorg.worldOf, Reorg.addLog]
  · set_option maxRecDepth 10000 in decide

namespace Reorg

theorem except_bind_ok {ε α β : Type} (x : Except ε α) (f : α → Except ε β)
    (b : β) : (x >>= f) = .ok b ↔ ∃ a, x = .ok a ∧ f a = .ok b := by
  show Except.bind x f = .ok b ↔ _
  cases x with
  | error e => simp [Except.bind]
  | ok a => simp [Except.bind]

theorem getFile_gitAdd (cfg : Cfg) (w : World) (p q : List String) :
    getFile (gitAdd cfg w p) q = getFile w q := by
  unfold gitAdd
  split
  · rfl
  · rfl

theorem find?_map_replace_ne (l : List (List String × String)) (p q : List String)
    (c : String) (h : (q == p) = false) :
    (l.map (fun pc => if pc.1 == q then (q, c) else pc)).find? (fun pc => pc.1 == p) =
      l.find? (fun pc => pc.1 == p) := by
  induction l with
  | nil => rfl
  | cons x xs ih =>
    rw [List.map_cons]
    by_cases hx : (x.1 == q) = true
    · rw [if_pos hx]
      have hxq : x.1 = q := by simpa using hx
      have hxp : (x.1 == p) = false := by
        rw [hxq]; exact h
      rw [List.find?_cons_of_neg _ (by simp at h ⊢; exact h),
        List.find?_cons_of_neg _ (by simp at hxp ⊢; exact hxp), ih]
    · rw [if_neg hx]
      by_cases hp : (x.1 == p) = true
      · have e1 : List.find? (fun pc => pc.1 == p)
            (x :: List.map (fun pc => if pc.1 == q then (q, c) else pc) xs) = some x :=
          List.find?_cons_of_pos _ hp
        have e2 : List.find? (fun pc => pc.1 == p) (x :: xs) = some x :=
          List.find?_cons_of_pos _ hp
        rw [e1, e2]
      · rw [List.find?_cons_of_neg _ (by simpa using hp),
          List.find?_cons_of_neg _ (by simpa using hp), ih]

theorem getFile_setFile_ne (w : World) (p q : List String) (c : String)
    (h : (q == p) = false) : getFile (setFile w q c) p = getFile w p := by
  unfold getFile setFile
  by_cases hq : w.files.any (fun pc => pc.1 == q) = true
  · rw [if_pos hq]
    rw [find?_map_replace_ne _ _ _ _ h]
  · rw [if_neg hq]
    rw [List.find?_append]
    have h2 : ([(q, c)].find? (fun pc => pc.1 == p)) = none := by
      simp only [List.find?]
      rw [h]
    simp [h2]

theorem stub_after (cfg : Cfg) (hdry : cfg.dryrun = false) (w : World)
    (p : List String) (t : String) :
    write_redirect_stub cfg w p t = setFile w p (stubContent t) := by
  simp [write_redirect_stub, hdry]

theorem guideBlock_stub {cfg : Cfg} {w w' : World} (hdry : cfg.dryrun = false)
    (hfe : fileExists w (cfg.rootSegs ++ ["jc_guide.html"]) = true)
    (hok : guideBlock cfg w = .ok w') :
    getFile w' (cfg.rootSegs ++ ["jc_guide.html"]) =
      some (stubContent "/guide/") := by
  unfold guideBlock at hok
  rw [if_pos hfe] at hok
  rw [except_bind_ok] at hok
  obtain ⟨wm, _, hrest⟩ := hok
  have hrest' : Except.ok (ε := Nat × World)
      (gitAdd cfg (write_redirect_stub cfg wm (cfg.rootSegs ++ ["jc_guide.html"])
        "/guide/") (cfg.rootSegs ++ ["jc_guide.html"])) = .ok w' := hrest
  injection hrest' with hw
  rw [← hw, getFile_gitAdd, stub_after cfg hdry]
  exact getFile_setFile _ _ _

theorem octMove_stubs {cfg : Cfg} {w w' : World} {ps : List String}
    (hdry : cfg.dryrun = false) (hok : octMove cfg w ps = .ok w') :
    getFile w' (cfg.rootSegs ++ ["JC-2025-10-14.html"]) =
      some (stubContent "/sessions/2025/10/") ∧
    getFile w' (cfg.rootSegs ++ ["jc-october-2025.html"]) =
      some (stubContent "/sessions/2025/10/") := by
  unfold octMove at hok
  rw [except_bind_ok] at hok
  obtain ⟨wm, _, hrest⟩ := hok
  have hrest' : Except.ok (ε := Nat × World)
      (gitAdd cfg (gitAdd cfg
        (write_redirect_stub cfg
          (write_redirect_stub cfg wm (cfg.rootSegs ++ ["JC-2025-10-14.html"])
            "/sessions/2025/10/")
          (cfg.rootSegs ++ ["jc-october-2025.html"]) "/sessions/2025/10/")
        (cfg.rootSegs ++ ["JC-2025-10-14.html"]))
      (cfg.rootSegs ++ ["jc-october-2025.html"])) = .ok w' := hrest
  injection hrest' with hw
  have hne : ((cfg.rootSegs ++ ["jc-october-2025.html"]) ==
      (cfg.rootSegs ++ ["JC-2025-10-14.html"])) = false := by
    rw [beq_eq_false_iff_ne]
    intro hc
    have := List.append_cancel_left hc
    simp at this
  constructor
  · rw [← hw, getFile_gitAdd, getFile_gitAdd, stub_after cfg hdry,
      stub_after cfg hdry, getFile_setFile_ne _ _ _ _ hne]
    exact getFile_setFile _ _ _
  · rw [← hw, getFile_gitAdd, getFile_gitAdd, stub_after cfg hdry]
    exact getFile_setFile _ _ _

theorem janBlock_stub {cfg : Cfg} {w w' : World} (hdry : cfg.dryrun = false)
    (hfe : fileExists w (cfg.rootSegs ++ ["JC-JAN-2026.html"]) = true)
    (hok : janBlock cfg w = .ok w') :
    getFile w' (cfg.rootSegs ++ ["JC-JAN-2026.html"]) =
      some (stubContent "/sessions/2026/01/") := by
  unfold janBlock at hok
  rw [if_pos hfe] at hok
  rw [except_bind_ok] at hok
  obtain ⟨wm, _, hrest⟩ := hok
  have hrest' : Except.ok (ε := Nat × World)
      (gitAdd cfg (write_redirect_stub cfg wm (cfg.rootSegs ++ ["JC-JAN-2026.html"])
        "/sessions/2026/01/") (cfg.rootSegs ++ ["JC-JAN-2026.html"])) = .ok w' := hrest
  injection hrest' with hw
  rw [← hw, getFile_gitAdd, stub_after cfg hdry]
  exact getFile_setFile _ _ _

theorem summaryBlock_stub {cfg : Cfg} {w w' : World} (hdry : cfg.dryrun = false)
    (hfe : fileExists w (cfg.rootSegs ++ ["summary-2025.html"]) = true)
    (hok : summaryBlock cfg w = .ok w') :
    getFile w' (cfg.rootSegs ++ ["summary-2025.html"]) =
      some (stubContent "/summaries/2025/") := by
  unfold summaryBlock at hok
  rw [if_pos hfe] at hok
  rw [except_bind_ok] at hok
  obtain ⟨wm, _, hrest⟩ := hok
  have hrest' : Except.ok (ε := Nat × World)
      (gitAdd cfg (write_redirect_stub cfg wm (cfg.rootSegs ++ ["summary-2025.html"])
        "/summaries/2025/") (cfg.rootSegs ++ ["summary-2025.html"])) = .ok w' := hrest
  injection hrest' with hw
  rw [← hw, getFile_gitAdd, stub_after cfg hdry]
  exact getFile_setFile _ _ _

def c7cfg : Cfg := { webroot := "docs", dryrun := false, ts := "20251011_000005", tarOk := true }

def c7w : World :=
  { files := [(["jc_guide.html"], "<a href=\"css/s.css\">x</a>"),
              (["docs", "assets", "css", "s.css"], "c")]
    dirs := [], tracked := [["jc_guide.html"], ["docs", "assets", "css", "s.css"]]
    isRepo := true, dirty := false, commits := 0, backups := [], log := [], phases := [] }

def c7wit : World :=
  { files := [(["docs", "jc_guide.html"], "g")]
    dirs := [["docs"], ["docs", "guide"]]
    tracked := [["docs", "jc_guide.html"]]
    isRepo := true, dirty := false, commits := 0, backups := [], log := [], phases := [] }

end Reorg

set_option maxRecDepth 10000 in
/-- Claim C7 counterexample: a successful run starting from a tracked
top-level `jc_guide.html` whose body holds a legacy asset reference
leaves `guide/index.html` holding the asset-path-rewritten text, not
the original content -- the rewrite phase edits the relocated document
in place. -/
theorem claim_C7_counterexample :
    (Reorg.main Reorg.c7cfg Reorg.c7w).isOk = true ∧
    Reorg.getFile Reorg.c7w ["jc_guide.html"] = some "<a href=\"css/s.css\">x</a>" ∧
    Reorg.getFile (Reorg.worldOf (Reorg.main Reorg.c7cfg Reorg.c7w))
      ["docs", "guide", "index.html"] = some "<a href=\"/assets/css/s.css\">x</a>" ∧
    ("<a href=\"/assets/css/s.css\">x</a>" : String) ≠ "<a href=\"css/s.css\">x</a>" := by
  refine ⟨by decide, by decide, by decide, by decide⟩

/-- Claim C7 as amended: every document relocation of the restructure
phase leaves a redirect stub at the vacated legacy path whose target is
the new canonical site-rooted path (for the October page, at both
legacy names); and after a run starting from a tracked top-level
`jc_guide.html`, `guide/index.html` holds the original content as
processed by the asset-path rewriter (identical when the document has
no legacy asset references) while `jc_guide.html` holds a stub whose
target is `/guide/`. -/
theorem claim_C7_stub_invariant :
    (∀ (cfg : Reorg.Cfg) (w w' : Reorg.World), cfg.dryrun = false →
      Reorg.fileExists w (cfg.rootSegs ++ ["jc_guide.html"]) = true →
      Reorg.guideBlock cfg w = .ok w' →
      Reorg.getFile w' (cfg.rootSegs ++ ["jc_guide.html"]) =
        some (Reorg.stubContent "/guide/")) ∧
    (∀ (cfg : Reorg.Cfg) (w w' : Reorg.World) (ps : List String),
      cfg.dryrun = false → Reorg.octMove cfg w ps = .ok w' →
      Reorg.getFile w' (cfg.rootSegs ++ ["JC-2025-10-14.html"]) =
        some (Reorg.stubContent "/sessions/2025/10/") ∧
      Reorg.getFile w' (cfg.rootSegs ++ ["jc-october-2025.html"]) =
        some (Reorg.stubContent "/sessions/2025/10/")) ∧
    (∀ (cfg : Reorg.Cfg) (w w' : Reorg.World), cfg.dryrun = false →
      Reorg.fileExists w (cfg.rootSegs ++ ["JC-JAN-2026.html"]) = true →
      Reorg.janBlock cfg w = .ok w' →
      Reorg.getFile w' (cfg.rootSegs ++ ["JC-JAN-2026.html"]) =
        some (Reorg.stubContent "/sessions/2026/01/")) ∧
    (∀ (cfg : Reorg.Cfg) (w w' : Reorg.World), cfg.dryrun = false →
      Reorg.fileExists w (cfg.rootSegs ++ ["summary-2025.html"]) = true →
      Reorg.summaryBlock cfg w = .ok w' →
      Reorg.getFile w' (cfg.rootSegs ++ ["summary-2025.html"]) =
        some (Reorg.stubContent "/summaries/2025/")) ∧
    (Reorg.getFile (Reorg.worldOf (Reorg.main Reorg.c7cfg Reorg.c7w))
        ["docs", "guide", "index.html"] =
      some (Rewriter.rewriteContent "<a href=\"css/s.css\">x</a>") ∧
    Reorg.getFile (Reorg.worldOf (Reorg.main Reorg.c7cfg Reorg.c7w))
        ["docs", "jc_guide.html"] = some (Reorg.stubContent "/guide/")) := by
  refine ⟨?_, ?_, ?_, ?_, ?_, ?_⟩
  · intro cfg w w' hdry hfe hok
    exact Reorg.guideBlock_stub hdry hfe hok
  · intro cfg w w' ps hdry hok
    exact Reorg.octMove_stubs hdry hok
  · intro cfg w w' hdry hfe hok
    exact Reorg.janBlock_stub hdry hfe hok
  · intro cfg w w' hdry hfe hok
    exact Reorg.summaryBlock_stub hdry hfe hok
  · set_option maxRecDepth 10000 in decide
  · set_option maxRecDepth 10000 in decide

set_option maxRecDepth 10000 in
/-- Witness for the amended C7: the guide block on a concrete world
leaves the stub at the vacated path. -/
theorem claim_C7_witness :
    Reorg.getFile (Reorg.worldOf (Reorg.guideBlock Reorg.c7cfg Reorg.c7wit))
      (Reorg.c7cfg.rootSegs ++ ["jc_guide.html"]) =
      some (Reorg.stubContent "/guide/") :=
  claim_C7_stub_invariant.1 Reorg.c7cfg Reorg.c7wit
    (Reorg.worldOf (Reorg.guideBlock Reorg.c7cfg Reorg.c7wit)) rfl (by decide)
    (by rfl)

namespace Reorg

theorem treePreserved_refl (w : World) : treePreserved w w :=
  ⟨rfl, rfl, rfl, rfl, rfl, rfl, rfl⟩

theorem treePreserved_trans {w1 w2 w3 : World} (h1 : treePreserved w1 w2)
    (h2 : treePreserved w2 w3) : treePreserved w1 w3 := by
  obtain ⟨a1, a2, a3, a4, a5, a6, a7⟩ := h1
  obtain ⟨b1, b2, b3, b4, b5, b6, b7⟩ := h2
  exact ⟨b1.trans a1, b2.trans a2, b3.trans a3, b4.trans a4, b5.trans a5,
    b6.trans a6, b7.trans a7⟩

theorem treePreserved_addLog (w : World) (s : String) :
    treePreserved w (addLog w s) := ⟨rfl, rfl, rfl, rfl, rfl, rfl, rfl⟩

theorem treePreserved_addPhase (w : World) (s : String) :
    treePreserved w (addPhase w s) := ⟨rfl, rfl, rfl, rfl, rfl, rfl, rfl⟩

/-- A step that, in a dry run, always succeeds, preserves the tree and
appends exactly `d` to the phase trace. -/
def DryOk (d : List String) (S : World → Except (Nat × World) World) : Prop :=
  ∀ w, ∃ w', S w = .ok w' ∧ treePreserved w w' ∧ w'.phases = w.phases ++ d

theorem DryOk.comp {d1 d2 : List String}
    {S1 S2 : World → Except (Nat × World) World} (h1 : DryOk d1 S1)
    (h2 : DryOk d2 S2) : DryOk (d1 ++ d2) (fun w => S1 w >>= S2) := by
  intro w
  obtain ⟨w1, e1, t1, f1⟩ := h1 w
  obtain ⟨w2, e2, t2, f2⟩ := h2 w1
  refine ⟨w2, ?_, treePreserved_trans t1 t2, ?_⟩
  · show S1 w >>= S2 = .ok w2
    rw [e1]
    exact e2
  · rw [f2, f1, List.append_assoc]

section DryLemmas

variable {cfg : Cfg} (hdry : cfg.dryrun = true)

include hdry

theorem gitAdd_dry (w : World) (p : List String) : gitAdd cfg w p = w := by
  simp [gitAdd, hdry]

theorem commitStep_dry (m : String) (w : World) : commitStep cfg m w = w := by
  simp [commitStep, hdry]

theorem stub_dry (w : World) (p : List String) (t : String) :
    write_redirect_stub cfg w p t =
      addLog w ("[DRYRUN] stub " ++ pathStr p ++ " -> " ++ t) := by
  simp [write_redirect_stub, hdry]

theorem runMkdir_dry (w : World) (p : List String) :
    runMkdir cfg w p = addLog w ("[DRYRUN] mkdir -p " ++ pathStr p) := by
  simp [runMkdir, hdry]

theorem runGitMv_dry (w : World) (s d : List String) :
    runGitMv cfg w s d =
      .ok (addLog w ("[DRYRUN] git mv " ++ pathStr s ++ " " ++ pathStr d)) := by
  simp [runGitMv, hdry]

theorem dry_backup : DryOk ["Creating backup: " ++ backupName cfg] (backup_repo cfg) := by
  intro w
  unfold backup_repo
  rw [if_pos hdry]
  refine ⟨_, rfl, ?_, ?_⟩
  · exact treePreserved_trans (treePreserved_addPhase _ _) (treePreserved_addLog _ _)
  · simp [addLog, addPhase]

theorem dry_prep : DryOk ["Preparing web root: " ++ cfg.webroot] (prepPhase cfg) := by
  intro w
  unfold prepPhase
  rw [runMkdir_dry hdry]
  refine ⟨_, rfl, ?_, ?_⟩
  · exact treePreserved_trans (treePreserved_addPhase _ _) (treePreserved_addLog _ _)
  · simp [addLog, addPhase]

theorem dry_gmiet (s d : List String) :
    DryOk [] (fun w => git_mv_if_exists_and_tracked cfg w s d) := by
  intro w
  show ∃ w', git_mv_if_exists_and_tracked cfg w s d = Except.ok w' ∧
    treePreserved w w' ∧ w'.phases = w.phases ++ []
  unfold git_mv_if_exists_and_tracked
  by_cases h : (pathExists w s && is_tracked w s) = true
  · rw [if_pos h, if_pos hdry]
    refine ⟨_, rfl, ?_, ?_⟩
    · exact treePreserved_trans (treePreserved_addLog _ _) (treePreserved_addLog _ _)
    · simp [addLog]
  · rw [if_neg h]
    exact ⟨_, rfl, treePreserved_addLog _ _, by simp [addLog]⟩

theorem dry_fold (ms : List (List String × List String)) :
    DryOk [] (fun w => ms.foldlM
      (fun w sd => git_mv_if_exists_and_tracked cfg w sd.1 sd.2) w) := by
  induction ms with
  | nil => intro w; exact ⟨w, rfl, treePreserved_refl w, by simp⟩
  | cons m rest ih =>
    intro w
    obtain ⟨w1, e1, t1, f1⟩ := dry_gmiet hdry m.1 m.2 w
    obtain ⟨w2, e2, t2, f2⟩ := ih w1
    refine ⟨w2, ?_, treePreserved_trans t1 t2, by rw [f2, f1]; simp⟩
    show List.foldlM (fun w sd => git_mv_if_exists_and_tracked cfg w sd.1 sd.2) w
      (m :: rest) = Except.ok w2
    rw [List.foldlM_cons]
    rw [show git_mv_if_exists_and_tracked cfg w m.1 m.2 = Except.ok w1 from e1]
    exact e2

theorem dry_flatten :
    DryOk ["Moving tracked site content into " ++ cfg.webroot ++ " (git mv)"]
      (flattenPhase cfg) := by
  intro w
  obtain ⟨w1, e1, t1, f1⟩ := dry_fold hdry (flattenMoves cfg)
    (addPhase w ("Moving tracked site content into " ++ cfg.webroot ++ " (git mv)"))
  have e1' : List.foldlM (fun w sd => git_mv_if_exists_and_tracked cfg w sd.1 sd.2)
      (addPhase w ("Moving tracked site content into " ++ cfg.webroot ++ " (git mv)"))
      (flattenMoves cfg) = Except.ok w1 := e1
  refine ⟨w1, ?_, ?_, ?_⟩
  · unfold flattenPhase
    rw [e1']
    show Except.ok (commitStep cfg _ w1) = _
    rw [commitStep_dry hdry]
  · exact treePreserved_trans (treePreserved_addPhase _ _) t1
  · rw [f1]
    simp [addPhase]

theorem dry_mkdirs :
    DryOk ["Creating clean structure under " ++ cfg.webroot] (mkdirsPhase cfg) := by
  intro w
  unfold mkdirsPhase
  simp only [runMkdir_dry hdry]
  refine ⟨_, rfl, ?_, ?_⟩
  · simp [treePreserved, addLog, addPhase]
  · simp [addLog, addPhase]

theorem dry_assetStep (name : String) : DryOk [] (assetStep cfg name) := by
  intro w
  unfold assetStep
  by_cases h : dirExists w (cfg.rootSegs ++ [name]) = true
  · rw [if_pos h]
    exact dry_gmiet hdry _ _ w
  · rw [if_neg h]
    exact ⟨w, rfl, treePreserved_refl w, by simp⟩

theorem dry_guide : DryOk [] (guideBlock cfg) := by
  intro w
  unfold guideBlock
  by_cases h : fileExists w (cfg.rootSegs ++ ["jc_guide.html"]) = true
  · rw [if_pos h, runGitMv_dry hdry]
    refine ⟨_, rfl, ?_, ?_⟩
    · rw [gitAdd_dry hdry, stub_dry hdry]
      exact treePreserved_trans (treePreserved_addLog _ _) (treePreserved_addLog _ _)
    · rw [gitAdd_dry hdry, stub_dry hdry]
      simp [addLog]
  · rw [if_neg h]
    exact ⟨w, rfl, treePreserved_refl w, by simp⟩

theorem dry_octMove (ps : List String) : DryOk [] (fun w => octMove cfg w ps) := by
  intro w
  show ∃ w', octMove cfg w ps = Except.ok w' ∧
    treePreserved w w' ∧ w'.phases = w.phases ++ []
  unfold octMove
  rw [runGitMv_dry hdry]
  refine ⟨_, rfl, ?_, ?_⟩
  · rw [gitAdd_dry hdry, gitAdd_dry hdry, stub_dry hdry, stub_dry hdry]
    exact treePreserved_trans (treePreserved_addLog _ _)
      (treePreserved_trans (treePreserved_addLog _ _) (treePreserved_addLog _ _))
  · rw [gitAdd_dry hdry, gitAdd_dry hdry, stub_dry hdry, stub_dry hdry]
    simp [addLog]

theorem dry_oct : DryOk [] (octBlock cfg) := by
  intro w
  unfold octBlock
  by_cases h1 : fileExists w (cfg.rootSegs ++ ["JC-2025-10-14.html"]) = true
  · rw [if_pos h1]; exact dry_octMove hdry _ w
  · rw [if_neg h1]
    by_cases h2 : fileExists w (cfg.rootSegs ++ ["jc-october-2025.html"]) = true
    · rw [if_pos h2]; exact dry_octMove hdry _ w
    · rw [if_neg h2]
      exact ⟨w, rfl, treePreserved_refl w, by simp⟩

theorem dry_jan : DryOk [] (janBlock cfg) := by
  intro w
  unfold janBlock
  by_cases h : fileExists w (cfg.rootSegs ++ ["JC-JAN-2026.html"]) = true
  · rw [if_pos h, runGitMv_dry hdry]
    refine ⟨_, rfl, ?_, ?_⟩
    · rw [gitAdd_dry hdry, stub_dry hdry]
      exact treePreserved_trans (treePreserved_addLog _ _) (treePreserved_addLog _ _)
    · rw [gitAdd_dry hdry, stub_dry hdry]
      simp [addLog]
  · rw [if_neg h]
    exact ⟨w, rfl, treePreserved_refl w, by simp⟩

theorem dry_summary : DryOk [] (summaryBlock cfg) := by
  intro w
  unfold summaryBlock
  by_cases h : fileExists w (cfg.rootSegs ++ ["summary-2025.html"]) = true
  · rw [if_pos h, runGitMv_dry hdry]
    refine ⟨_, rfl, ?_, ?_⟩
    · rw [gitAdd_dry hdry, stub_dry hdry]
      exact treePreserved_trans (treePreserved_addLog _ _) (treePreserved_addLog _ _)
    · rw [gitAdd_dry hdry, stub_dry hdry]
      simp [addLog]
  · rw [if_neg h]
    exact ⟨w, rfl, treePreserved_refl w, by simp⟩

theorem dry_blocks : DryOk [] (blocksPhase cfg) := by
  have c1 := (dry_assetStep hdry "css").comp (dry_assetStep hdry "js")
  have c2 := c1.comp (dry_assetStep hdry "img")
  have c3 := c2.comp (dry_guide hdry)
  have c4 := c3.comp (dry_oct hdry)
  have c5 := c4.comp (dry_jan hdry)
  have c6 := c5.comp (dry_summary hdry)
  exact c6

theorem dry_validate :
    DryOk ["Rewriting asset paths in HTML to /assets/... (safe for nested pages)",
      "Running local link check (href/src → file exists)", "DONE"]
      (validatePhase cfg) := by
  intro w
  have hrw : rewrite_asset_paths cfg w =
      addLog (addPhase w "Rewriting asset paths in HTML to /assets/... (safe for nested pages)")
        ("[DRYRUN] Would rewrite paths under " ++ cfg.webroot) := by
    unfold rewrite_asset_paths
    rw [if_pos hdry]
  have hlc : link_check cfg (rewrite_asset_paths cfg w) = Except.ok
      (addLog (addPhase (rewrite_asset_paths cfg w)
        "Running local link check (href/src → file exists)")
        ("[DRYRUN] Would run link check under " ++ cfg.webroot)) := by
    unfold link_check
    rw [if_pos hdry]
  refine ⟨addLog (addLog (addLog (addLog (addPhase
      (commitStep cfg "No changes to commit (already organized?)."
        (addLog (addPhase (rewrite_asset_paths cfg w)
          "Running local link check (href/src → file exists)")
          ("[DRYRUN] Would run link check under " ++ cfg.webroot))) "DONE")
      "Next steps:")
      ("1) GitHub: Settings: Pages: Source: main branch: Folder: /" ++ cfg.webroot))
      ("2) DreamHost: upload " ++ cfg.webroot ++ "/* to your web root"))
      "3) Test legacy URLs and new clean URLs", ?_, ?_, ?_⟩
  · unfold validatePhase
    rw [hlc]
    rfl
  · rw [commitStep_dry hdry, hrw]
    simp [treePreserved, addLog, addPhase]
  · rw [commitStep_dry hdry, hrw]
    simp [addLog, addPhase]

end DryLemmas

end Reorg

namespace Reorg

theorem pure_ok {ε α : Type} {a b : α} (h : (pure a : Except ε α) = .ok b) :
    a = b := by
  have h' : Except.ok (ε := ε) a = Except.ok b := h
  injection h'

theorem require_ok_eq {w w' : World} (h : require_clean_git w = .ok w') :
    w' = w := by
  unfold require_clean_git at h
  split at h
  · cases h
  · split at h
    · cases h
    · injection h with h2
      exact h2.symm

/-- A step whose successful runs append exactly `d` to the phase
trace. -/
def OkPhases (d : List String) (S : World → Except (Nat × World) World) : Prop :=
  ∀ w w', S w = .ok w' → w'.phases = w.phases ++ d

theorem OkPhases.compP {d1 d2 : List String}
    {S1 S2 : World → Except (Nat × World) World} (h1 : OkPhases d1 S1)
    (h2 : OkPhases d2 S2) : OkPhases (d1 ++ d2) (fun w => S1 w >>= S2) := by
  intro w w' hok
  have hok' : (S1 w >>= S2) = .ok w' := hok
  rw [except_bind_ok] at hok'
  obtain ⟨a, e1, e2⟩ := hok'
  rw [h2 a w' e2, h1 w a e1, List.append_assoc]

theorem phases_addLog (w : World) (s : String) : (addLog w s).phases = w.phases := rfl

theorem phases_addPhase (w : World) (s : String) :
    (addPhase w s).phases = w.phases ++ [s] := rfl

theorem phases_runMkdir (cfg : Cfg) (w : World) (p : List String) :
    (runMkdir cfg w p).phases = w.phases := by
  unfold runMkdir
  split <;> rfl

theorem phases_commitStep (cfg : Cfg) (m : String) (w : World) :
    (commitStep cfg m w).phases = w.phases := by
  unfold commitStep
  split
  · split <;> rfl
  · rfl

theorem phases_gitAdd (cfg : Cfg) (w : World) (p : List String) :
    (gitAdd cfg w p).phases = w.phases := by
  unfold gitAdd
  split <;> rfl

theorem phases_stub (cfg : Cfg) (w : World) (p : List String) (t : String) :
    (write_redirect_stub cfg w p t).phases = w.phases := by
  unfold write_redirect_stub
  split
  · rfl
  · unfold setFile
    split <;> rfl

theorem phases_rewrite (cfg : Cfg) (w : World) :
    (rewrite_asset_paths cfg w).phases =
      w.phases ++ ["Rewriting asset paths in HTML to /assets/... (safe for nested pages)"] := by
  unfold rewrite_asset_paths
  split <;> rfl

theorem okP_gmiet (cfg : Cfg) (s d : List String) :
    OkPhases [] (fun w => git_mv_if_exists_and_tracked cfg w s d) := by
  intro w w' h
  replace h : git_mv_if_exists_and_tracked cfg w s d = Except.ok w' := h
  unfold git_mv_if_exists_and_tracked at h
  split at h
  · split at h
    · injection h with h2
      rw [← h2]
      simp [addLog]
    · unfold git_mv at h
      split at h
      · cases h
      · split at h <;>
          (injection h with h2; rw [← h2]; simp [movePathFs, mkdirP])
  · injection h with h2
    rw [← h2]
    simp [addLog]

theorem okP_fold (cfg : Cfg) :
    ∀ ms : List (List String × List String), OkPhases [] (fun w =>
      ms.foldlM (fun w sd => git_mv_if_exists_and_tracked cfg w sd.1 sd.2) w) := by
  intro ms
  induction ms with
  | nil =>
    intro w w' h
    replace h : (pure w : Except (Nat × World) World) = .ok w' := h
    rw [← pure_ok h]
    simp
  | cons m rest ih =>
    intro w w' h
    replace h : List.foldlM (fun w sd => git_mv_if_exists_and_tracked cfg w sd.1 sd.2)
        w (m :: rest) = Except.ok w' := h
    rw [List.foldlM_cons, except_bind_ok] at h
    obtain ⟨a, e1, e2⟩ := h
    rw [ih a w' e2, okP_gmiet cfg m.1 m.2 w a e1]
    simp

theorem okP_require : OkPhases [] require_clean_git := by
  intro w w' h
  rw [require_ok_eq h]
  simp

theorem okP_backup (cfg : Cfg) :
    OkPhases ["Creating backup: " ++ backupName cfg] (backup_repo cfg) := by
  intro w w' h
  unfold backup_repo at h
  split at h
  · injection h with h2
    rw [← h2]
    rfl
  · split at h
    · injection h with h2
      rw [← h2]
      rfl
    · cases h

theorem okP_prep (cfg : Cfg) :
    OkPhases ["Preparing web root: " ++ cfg.webroot] (prepPhase cfg) := by
  intro w w' h
  unfold prepPhase at h
  rw [← pure_ok h, phases_runMkdir]
  rfl

theorem okP_flatten (cfg : Cfg) :
    OkPhases ["Moving tracked site content into " ++ cfg.webroot ++ " (git mv)"]
      (flattenPhase cfg) := by
  intro w w' h
  unfold flattenPhase at h
  rw [except_bind_ok] at h
  obtain ⟨a, e1, e2⟩ := h
  rw [← pure_ok e2, phases_commitStep,
    okP_fold cfg (flattenMoves cfg) _ a e1]
  simp [addPhase]

theorem okP_mkdirs (cfg : Cfg) :
    OkPhases ["Creating clean structure under " ++ cfg.webroot] (mkdirsPhase cfg) := by
  intro w w' h
  unfold mkdirsPhase at h
  rw [← pure_ok h]
  simp [phases_runMkdir, addPhase]

theorem okP_runGitMv (cfg : Cfg) (s d : List String) :
    OkPhases [] (fun w => runGitMv cfg w s d) := by
  intro w w' h
  replace h : runGitMv cfg w s d = Except.ok w' := h
  unfold runGitMv at h
  split at h
  · injection h with h2
    rw [← h2]
    simp [addLog]
  · unfold git_mv at h
    split at h
    · cases h
    · split at h <;> (injection h with h2; rw [← h2]; simp [movePathFs])

theorem okP_assetStep (cfg : Cfg) (name : String) :
    OkPhases [] (assetStep cfg name) := by
  intro w w' h
  unfold assetStep at h
  split at h
  · exact okP_gmiet cfg _ _ w w' h
  · rw [← pure_ok h]
    simp

theorem okP_guide (cfg : Cfg) : OkPhases [] (guideBlock cfg) := by
  intro w w' h
  unfold guideBlock at h
  split at h
  · rw [except_bind_ok] at h
    obtain ⟨a, e1, e2⟩ := h
    rw [← pure_ok e2, phases_gitAdd, phases_stub,
      okP_runGitMv cfg _ _ w a e1]
  · rw [← pure_ok h]
    simp

theorem okP_octMove (cfg : Cfg) (ps : List String) :
    OkPhases [] (fun w => octMove cfg w ps) := by
  intro w w' h
  replace h : octMove cfg w ps = Except.ok w' := h
  unfold octMove at h
  rw [except_bind_ok] at h
  obtain ⟨a, e1, e2⟩ := h
  rw [← pure_ok e2, phases_gitAdd, phases_gitAdd, phases_stub, phases_stub,
    okP_runGitMv cfg _ _ w a e1]

theorem okP_oct (cfg : Cfg) : OkPhases [] (octBlock cfg) := by
  intro w w' h
  unfold octBlock at h
  split at h
  · exact okP_octMove cfg _ w w' h
  · split at h
    · exact okP_octMove cfg _ w w' h
    · rw [← pure_ok h]
      simp

theorem okP_jan (cfg : Cfg) : OkPhases [] (janBlock cfg) := by
  intro w w' h
  unfold janBlock at h
  split at h
  · rw [except_bind_ok] at h
    obtain ⟨a, e1, e2⟩ := h
    rw [← pure_ok e2, phases_gitAdd, phases_stub, okP_runGitMv cfg _ _ w a e1]
  · rw [← pure_ok h]
    simp

theorem okP_summary (cfg : Cfg) : OkPhases [] (summaryBlock cfg) := by
  intro w w' h
  unfold summaryBlock at h
  split at h
  · rw [except_bind_ok] at h
    obtain ⟨a, e1, e2⟩ := h
    rw [← pure_ok e2, phases_gitAdd, phases_stub, okP_runGitMv cfg _ _ w a e1]
  · rw [← pure_ok h]
    simp

theorem okP_blocks (cfg : Cfg) : OkPhases [] (blocksPhase cfg) := by
  have c1 := (okP_assetStep cfg "css").compP (okP_assetStep cfg "js")
  have c2 := c1.compP (okP_assetStep cfg "img")
  have c3 := c2.compP (okP_guide cfg)
  have c4 := c3.compP (okP_oct cfg)
  have c5 := c4.compP (okP_jan cfg)
  have c6 := c5.compP (okP_summary cfg)
  exact c6

theorem okP_linkcheck (cfg : Cfg) :
    OkPhases ["Running local link check (href/src → file exists)"] (link_check cfg) := by
  intro w w' h
  unfold link_check at h
  split at h
  · injection h with h2
    rw [← h2]
    rfl
  · dsimp only at h
    split at h
    · injection h with h2
      rw [← h2]
      rfl
    · cases h

theorem okP_validate (cfg : Cfg) :
    OkPhases ["Rewriting asset paths in HTML to /assets/... (safe for nested pages)",
      "Running local link check (href/src → file exists)", "DONE"]
      (validatePhase cfg) := by
  intro w w' h
  unfold validatePhase at h
  rw [except_bind_ok] at h
  obtain ⟨a, e1, e2⟩ := h
  have ha : a.phases = (rewrite_asset_paths cfg w).phases ++
      ["Running local link check (href/src → file exists)"] :=
    okP_linkcheck cfg _ a e1
  rw [← pure_ok e2]
  simp only [phases_addLog, phases_addPhase, phases_commitStep, ha, phases_rewrite]
  simp

end Reorg

namespace Reorg

/-- The five non-preflight pipeline stages composed, as run after a
successful preflight check. -/
theorem dry_pipeline {cfg : Cfg} (hdry : cfg.dryrun = true) :
    DryOk (phaseList cfg) (fun w =>
      ((((backup_repo cfg w >>= prepPhase cfg) >>= flattenPhase cfg) >>=
        mkdirsPhase cfg) >>= blocksPhase cfg) >>= validatePhase cfg) := by
  have c1 := (dry_backup hdry).comp (dry_prep hdry)
  have c2 := c1.comp (dry_flatten hdry)
  have c3 := c2.comp (dry_mkdirs hdry)
  have c4 := c3.comp (dry_blocks hdry)
  have c5 := c4.comp (dry_validate hdry)
  exact c5

theorem okP_main (cfg : Cfg) : OkPhases (phaseList cfg) (fun w => main cfg w) := by
  have o1 := okP_require.compP (okP_backup cfg)
  have o2 := o1.compP (okP_prep cfg)
  have o3 := o2.compP (okP_flatten cfg)
  have o4 := o3.compP (okP_mkdirs cfg)
  have o5 := o4.compP (okP_blocks cfg)
  have o6 := o5.compP (okP_validate cfg)
  exact o6

def c8cfg : Cfg := { webroot := "docs", dryrun := true, ts := "20251011_000008", tarOk := true }

def c8w : World :=
  { files := [(["index.html"], "x"), (["jc_guide.html"], "y")]
    dirs := [["css"]], tracked := [["index.html"], ["jc_guide.html"]]
    isRepo := true, dirty := false
    commits := 3, backups := [], log := [], phases := [] }

end Reorg

/-- Claim C8: with the dry-run option set, a full pipeline run performs
zero filesystem mutations and zero version-control operations -- the
final world has the same files, directories, tracked set, commit count,
backups, dirty flag and repo flag as the initial one -- and, past the
preflight check, it succeeds and reports exactly the phase sequence
`phaseList`, which is also the phase sequence every successful real run
reports. -/
theorem claim_C8_dry_run (cfg : Reorg.Cfg) (w : Reorg.World)
    (hdry : cfg.dryrun = true) :
    Reorg.treePreserved w (Reorg.worldOf (Reorg.main cfg w)) ∧
    (w.isRepo = true → w.dirty = false →
      ∃ wd, Reorg.main cfg w = .ok wd ∧
        wd.phases = w.phases ++ Reorg.phaseList cfg) ∧
    (∀ (cfg2 : Reorg.Cfg) (w2 wr : Reorg.World), cfg2.webroot = cfg.webroot →
      cfg2.ts = cfg.ts → Reorg.main cfg2 w2 = .ok wr →
      wr.phases = w2.phases ++ Reorg.phaseList cfg) := by
  have chainDry : ∀ w' : Reorg.World, w'.isRepo = true → w'.dirty = false →
      ∃ wd, Reorg.main cfg w' = .ok wd ∧ Reorg.treePreserved w' wd ∧
        wd.phases = w'.phases ++ Reorg.phaseList cfg := by
    intro w' hrepo hclean
    have hreq : Reorg.require_clean_git w' = .ok w' := by
      simp [Reorg.require_clean_git, hrepo, hclean]
    obtain ⟨wd, e, t, f⟩ := Reorg.dry_pipeline hdry w'
    refine ⟨wd, ?_, t, f⟩
    unfold Reorg.main
    rw [hreq]
    exact e
  refine ⟨?_, ?_, ?_⟩
  · by_cases hrepo : w.isRepo = true
    · by_cases hdirty : w.dirty = true
      · rw [Reorg.main_err_dirty hrepo hdirty]
        exact Reorg.treePreserved_addLog w _
      · have hclean : w.dirty = false := by
          cases hd : w.dirty with
          | true => exact absurd hd hdirty
          | false => rfl
        obtain ⟨wd, e, t, f⟩ := chainDry w hrepo hclean
        rw [e]
        exact t
    · have hrepo' : w.isRepo = false := by
        cases hr : w.isRepo with
        | true => exact absurd hr hrepo
        | false => rfl
      rw [Reorg.main_err_no_repo hrepo']
      exact Reorg.treePreserved_addLog w _
  · intro hrepo hclean
    obtain ⟨wd, e, t, f⟩ := chainDry w hrepo hclean
    exact ⟨wd, e, f⟩
  · intro cfg2 w2 wr hweb hts hok
    have hPL : Reorg.phaseList cfg2 = Reorg.phaseList cfg := by
      simp [Reorg.phaseList, Reorg.backupName, hweb, hts]
    rw [← hPL]
    exact Reorg.okP_main cfg2 w2 wr hok

/-- Witness for C8: a concrete dry run on a small clean repository
preserves the tree and reports the seven-phase sequence. -/
theorem claim_C8_witness :
    Reorg.c8cfg.dryrun = true ∧
    Reorg.treePreserved Reorg.c8w (Reorg.worldOf (Reorg.main Reorg.c8cfg Reorg.c8w)) ∧
    ∃ wd, Reorg.main Reorg.c8cfg Reorg.c8w = .ok wd ∧
      wd.phases = Reorg.c8w.phases ++ Reorg.phaseList Reorg.c8cfg :=
  ⟨rfl, (claim_C8_dry_run Reorg.c8cfg Reorg.c8w rfl).1,
    (claim_C8_dry_run Reorg.c8cfg Reorg.c8w rfl).2.1 rfl rfl⟩
